import Mathlib

/-!
Shallow embedding of the mantau schema-driven data-reshaping engine
(`mantau.go`) and proofs of its specified properties.

Go runtime values reaching the engine through `interface{}` are modelled by
the inductive type `Value`:

* `vnil` is the nil interface value;
* `vbool`, `vint`, `vstr` are the opaque scalar kinds (`reflect.Kind`
  neither struct, map, slice, array nor pointer);
* `vtime` stands for `time.Time`, the one built-in struct recognised by
  `isCustomStruct`;
* `vstruct` carries the field list of a struct value: each field has a Go
  field name, a tag list (tag key paired with tag value, as read by
  `reflect.StructTag.Lookup`) and a field value;
* `vmap` is a string-keyed map (`transformMap` reads keys with
  `reflect.Value.String`, so only string keys are meaningful);
* `vresult` is a value whose dynamic Go type is `Result`
  (`map[string]interface{}`); it is a map for `reflect.Kind` purposes but is
  distinguished because `transformCollections` performs the type assertion
  `value.(Result)`;
* `vslice` / `varray` are slices and arrays;
* `vptr` is a pointer, `none` standing for a nil pointer.

Association lists model Go maps; iteration order of a Go map is not
observable in the final map contents, so a fixed list order is a sound
rendering of one run.
-/

set_option linter.unnecessarySeqFocus false
set_option linter.unreachableTactic false
set_option linter.unusedTactic false

namespace Mantau

inductive Value where
  | vnil : Value
  | vbool : Bool → Value
  | vint : Int → Value
  | vstr : String → Value
  | vtime : Value
  | vstruct : List (String × List (String × String) × Value) → Value
  | vmap : List (String × Value) → Value
  | vresult : List (String × Value) → Value
  | vslice : List Value → Value
  | varray : List Value → Value
  | vptr : Option Value → Value

/-- A struct field as seen by reflection: name, tags, value. -/
abbrev SField := String × List (String × String) × Value

/-- `SchemaField` from `mantau.go`: `Key` is the source key to match, `Value`
is `interface{}` and is significant only when it holds a `Schema`, so it is
modelled as an optional nested schema. -/
inductive SchemaField where
  | mk : String → Option (List (String × SchemaField)) → SchemaField

/-- `Schema` is `map[string]SchemaField`; modelled as an association list
from output key to `SchemaField`. -/
abbrev Schema := List (String × SchemaField)

def SchemaField.Key : SchemaField → String
  | .mk k _ => k

def SchemaField.Value : SchemaField → Option Schema
  | .mk _ v => v

/-- The `DataType` classification of `mantau.go`. -/
inductive DataType where
  | Struct
  | Map
  | Slice
  | Array
  | Pointer
  | Other
  | Nil
deriving DecidableEq, Repr

/-- `getDataType`: nil interface is `Nil`, otherwise classify by
`reflect.Kind`.  A `Result` value is a map kind; `time.Time` is a struct
kind; a typed nil pointer is a non-nil interface of pointer kind. -/
def getDataType : Value → DataType
  | .vnil => .Nil
  | .vbool _ => .Other
  | .vint _ => .Other
  | .vstr _ => .Other
  | .vtime => .Struct
  | .vstruct _ => .Struct
  | .vmap _ => .Map
  | .vresult _ => .Map
  | .vslice _ => .Slice
  | .varray _ => .Array
  | .vptr _ => .Pointer

/-- `src == nil` on an `interface{}` value. -/
def isNilV : Value → Bool
  | .vnil => true
  | _ => false

/-- `getValue`/`getType`: dereference one pointer level, otherwise the value
itself. -/
def derefOnce : Value → Value
  | .vptr (some v) => v
  | .vptr none => .vnil
  | v => v

/-- `getPtrValue`: a nil pointer (`IsZero`) yields the nil interface,
otherwise the pointee. -/
def getPtrValue : Value → Value
  | .vptr none => .vnil
  | .vptr (some v) => v
  | _ => .vnil

/-- `isCustomStruct`: only `time.Time` is recognised. -/
def isCustomStruct : Value → Bool
  | .vtime => true
  | _ => false

/-- Field list seen by `transformStruct` (empty for non-struct values,
which the dispatch never sends there). -/
def fieldsOf : Value → List SField
  | .vstruct fs => fs
  | _ => []

/-- Entry list seen by `transformMap`. -/
def entriesOf : Value → List (String × Value)
  | .vmap es => es
  | .vresult es => es
  | _ => []

/-- Element list seen by `transformCollections`. -/
def elemsOf : Value → List Value
  | .vslice xs => xs
  | .varray xs => xs
  | _ => []

/-- Go map assignment `result[k] = value` on an association list with
unique keys: update in place or append. -/
def rinsert : List (String × Value) → String → Value → List (String × Value)
  | [], k, v => [(k, v)]
  | (k0, v0) :: rest, k, v =>
      if k0 = k then (k0, v) :: rest else (k0, v0) :: rinsert rest k v

/-- Map lookup on an association list. -/
def rlookup : List (String × Value) → String → Option Value
  | [], _ => none
  | (k0, v0) :: rest, k => if k0 = k then some v0 else rlookup rest k

/-- `reflect.StructTag.Lookup`: `(value, true)` when the tag key is
present, `("", false)` otherwise. -/
def tagsLookup (tags : List (String × String)) (key : String) : String × Bool :=
  match tags.find? (fun p => p.1 == key) with
  | some p => (p.2, true)
  | none => ("", false)

/-- The `schemaValue` computation shared by `transformStruct` and
`transformMap`: the nested schema when the `SchemaField`'s `Value` holds a
`Schema`, the enclosing schema otherwise. -/
def scopeOf (sf : SchemaField) (schema : Schema) : Schema :=
  match sf.Value with
  | some s2 => s2
  | none => schema

/-- `tagLookup`: find the field by name, then look up the configured tag.
An empty tag value answers `("", nil)`; the `"Cannot find tag"` branch
requires a non-empty tag value together with a failed lookup. -/
def tagLookup (tg : String) (allFields : List SField) (fieldName : String) :
    Except String String :=
  match allFields.find? (fun p => p.1 == fieldName) with
  | none => .error "Cannot find the field"
  | some field =>
    let r := tagsLookup field.2.1 tg
    if r.1 = "" then .ok ""
    else if r.2 = false then .error "Cannot find tag"
    else .ok r.1

mutual

/-- Size measure used for termination of the transformer. -/
def vsize : Value → Nat
  | .vnil => 1
  | .vbool _ => 2
  | .vint _ => 2
  | .vstr _ => 2
  | .vtime => 2
  | .vptr none => 2
  | .vptr (some v) => 3 + vsize v
  | .vstruct fs => 2 + flsize fs
  | .vmap es => 2 + elsize es
  | .vresult es => 2 + elsize es
  | .vslice xs => 2 + vlsize xs
  | .varray xs => 2 + vlsize xs

def flsize : List SField → Nat
  | [] => 1
  | (_, _, v) :: rest => 2 + vsize v + flsize rest

def elsize : List (String × Value) → Nat
  | [] => 1
  | (_, v) :: rest => 2 + vsize v + elsize rest

def vlsize : List Value → Nat
  | [] => 1
  | v :: rest => 1 + vsize v + vlsize rest

end

theorem vsize_pos (v : Value) : 1 ≤ vsize v := by
  cases v with
  | vptr o => cases o <;> simp [vsize] <;> omega
  | _ => simp [vsize] <;> omega

theorem flsize_pos (fs : List SField) : 1 ≤ flsize fs := by
  cases fs with
  | nil => simp [flsize]
  | cons f rest =>
    obtain ⟨a, b, v⟩ := f
    simp [flsize] <;> omega

theorem elsize_pos (es : List (String × Value)) : 1 ≤ elsize es := by
  cases es with
  | nil => simp [elsize]
  | cons e rest =>
    obtain ⟨a, v⟩ := e
    simp [elsize] <;> omega

theorem vlsize_pos (xs : List Value) : 1 ≤ vlsize xs := by
  cases xs with
  | nil => simp [vlsize]
  | cons v rest => simp [vlsize] <;> omega

theorem vsize_ge_two (v : Value) (h : isNilV v = false) : 2 ≤ vsize v := by
  cases v with
  | vnil => simp [isNilV] at h
  | vptr o => cases o <;> simp [vsize] <;> omega
  | _ => simp [vsize] <;> omega

theorem flsize_fieldsOf_lt (src : Value) (h : isNilV src = false) :
    flsize (fieldsOf (derefOnce src)) < vsize src := by
  cases src with
  | vnil => simp [isNilV] at h
  | vptr o =>
    cases o with
    | none => simp [derefOnce, fieldsOf, flsize, vsize]
    | some w => cases w <;> simp [derefOnce, fieldsOf, flsize, vsize] <;> omega
  | _ => simp [derefOnce, fieldsOf, flsize, vsize] <;> omega

theorem elsize_entriesOf_lt (src : Value) (h : isNilV src = false) :
    elsize (entriesOf (derefOnce src)) < vsize src := by
  cases src with
  | vnil => simp [isNilV] at h
  | vptr o =>
    cases o with
    | none => simp [derefOnce, entriesOf, elsize, vsize]
    | some w => cases w <;> simp [derefOnce, entriesOf, elsize, vsize] <;> omega
  | _ => simp [derefOnce, entriesOf, elsize, vsize] <;> omega

theorem vlsize_elemsOf_lt (src : Value) (h : isNilV src = false) :
    vlsize (elemsOf (derefOnce src)) < vsize src := by
  cases src with
  | vnil => simp [isNilV] at h
  | vptr o =>
    cases o with
    | none => simp [derefOnce, elemsOf, vlsize, vsize]
    | some w => cases w <;> simp [derefOnce, elemsOf, vlsize, vsize] <;> omega
  | _ => simp [derefOnce, elemsOf, vlsize, vsize] <;> omega

theorem ptrStep (s : Value) :
    4 * vsize (getPtrValue s) +
      (if getDataType (getPtrValue s) = DataType.Pointer then 3 else 2) <
    4 * vsize s + 3 := by
  cases s with
  | vptr o =>
    cases o with
    | none => simp [getPtrValue, getDataType, vsize]
    | some w => cases w <;> simp [getPtrValue, getDataType, vsize] <;> omega
  | _ => simp [getPtrValue, getDataType, vsize] <;> omega

theorem tv_rank_lt (v : Value) (t : DataType) :
    4 * vsize v + (if t = DataType.Pointer then 3 else 2) < 4 * (1 + vsize v) := by
  split <;> omega

theorem flsize_cons_head (fld : SField) (rest : List SField) :
    4 * (1 + vsize fld.2.2) < 4 * flsize (fld :: rest) := by
  obtain ⟨a, b, v⟩ := fld
  have := flsize_pos rest
  simp only [flsize]
  omega

theorem flsize_cons_tail (fld : SField) (rest : List SField) :
    4 * flsize rest < 4 * flsize (fld :: rest) := by
  obtain ⟨a, b, v⟩ := fld
  have := vsize_pos v
  simp only [flsize]
  omega

theorem elsize_cons_head (mkey : String) (mv : Value) (rest : List (String × Value)) :
    4 * (1 + vsize mv) < 4 * elsize ((mkey, mv) :: rest) := by
  have := elsize_pos rest
  simp only [elsize]
  omega

theorem elsize_cons_tail (e : String × Value) (rest : List (String × Value)) :
    4 * elsize rest < 4 * elsize (e :: rest) := by
  obtain ⟨a, v⟩ := e
  have := vsize_pos v
  simp only [elsize]
  omega

theorem vlsize_cons_head (x : Value) (t : DataType) (rest : List Value) :
    4 * vsize x + (if t = DataType.Pointer then 3 else 2) < 4 * vlsize (x :: rest) := by
  have := vlsize_pos rest
  simp only [vlsize]
  split <;> omega

theorem vlsize_cons_tail (x : Value) (rest : List Value) :
    4 * vlsize rest < 4 * vlsize (x :: rest) := by
  have := vsize_pos x
  simp only [vlsize]
  omega

theorem structDec (src : Value) (h : isNilV src = false) :
    4 * flsize (fieldsOf (derefOnce src)) < 4 * vsize src + 1 := by
  have := flsize_fieldsOf_lt src h
  omega

theorem mapDec (src : Value) (h : isNilV src = false) :
    4 * elsize (entriesOf (derefOnce src)) < 4 * vsize src + 1 := by
  have := elsize_entriesOf_lt src h
  omega

theorem collDec (src : Value) (h : isNilV src = false) :
    4 * vlsize (elemsOf (derefOnce src)) < 4 * vsize src + 1 := by
  have := vlsize_elemsOf_lt src h
  omega

mutual

/-- `transformValue` from `mantau.go`: dispatch on the (caller-computed)
data type, pass opaque values through, unwrap pointers, route containers. -/
def transformValue (tg : String) (s : Value) (t : DataType) (f : Schema) :
    Except String Value :=
  if t = .Other then .ok s
  else
    match t with
    | .Struct =>
        if isCustomStruct s then .ok s
        else transformStruct tg s f
    | .Slice => transformCollections tg s f
    | .Array => transformCollections tg s f
    | .Map => transformMap tg s f
    | .Pointer =>
        let value := getPtrValue s
        transformValue tg value (getDataType value) f
    | .Other => .ok s
    | .Nil => .ok .vnil
termination_by (4 * vsize s + (if t = DataType.Pointer then 3 else 2), 0)
decreasing_by
  all_goals simp_wf
  all_goals first
    | exact Prod.Lex.left _ _ (ptrStep s)
    | exact Prod.Lex.left _ _ (by omega)
    | exact Prod.Lex.right _ (by omega)


/-- `transformStruct`: nil source answers nil; otherwise iterate the
struct's fields against the schema, building a `Result`. -/
def transformStruct (tg : String) (src : Value) (schema : Schema) :
    Except String Value :=
  if _h : isNilV src then .ok .vnil
  else structLoop tg (fieldsOf (derefOnce src)) (fieldsOf (derefOnce src)) schema []
termination_by (4 * vsize src + 1, 0)
decreasing_by
  all_goals simp_wf
  all_goals exact Prod.Lex.left _ _ (structDec src (by simpa using _h))


/-- Outer loop of `transformStruct` (`for i := 0; i < srcValue.NumField()`). -/
def structLoop (tg : String) (allFields flds : List SField) (schema : Schema)
    (acc : List (String × Value)) : Except String Value :=
  match flds with
  | [] => .ok (.vresult acc)
  | fld :: rest =>
    match structInner tg allFields fld schema schema acc with
    | .error e => .error e
    | .ok acc2 => structLoop tg allFields rest schema acc2
termination_by (4 * flsize flds, 0)
decreasing_by
  all_goals simp_wf
  all_goals first
    | exact Prod.Lex.left _ _ (flsize_cons_head _ _)
    | exact Prod.Lex.left _ _ (flsize_cons_tail _ _)

/-- Inner loop of `transformStruct` (`for k, v := range schema`): look the
field's tag up, and on a match transform the field value under the nested
schema when one is declared, the enclosing schema otherwise. -/
def structInner (tg : String) (allFields : List SField) (fld : SField)
    (siter schema : Schema) (acc : List (String × Value)) :
    Except String (List (String × Value)) :=
  match siter with
  | [] => .ok acc
  | (k, sf) :: srest =>
    match tagLookup tg allFields fld.1 with
    | .error e => .error e
    | .ok tag =>
      if sf.Key = tag then
        let fieldValue := fld.2.2
        let fieldValueType := getDataType fieldValue
        if fieldValueType = .Nil then
          structInner tg allFields fld srest schema acc
        else
          let schemaValue := scopeOf sf schema
          match transformValue tg fieldValue fieldValueType schemaValue with
          | .error e => .error e
          | .ok value => structInner tg allFields fld srest schema (rinsert acc k value)
      else structInner tg allFields fld srest schema acc
termination_by (4 * (1 + vsize fld.2.2), siter.length)
decreasing_by
  all_goals simp_wf
  all_goals first
    | exact Prod.Lex.right _ (by omega)
    | exact Prod.Lex.left _ _ (tv_rank_lt _ _)

/-- `transformCollections`: nil source answers nil; otherwise transform
every element with the same schema.  Elements of opaque kind are appended
unchanged; otherwise the transformed value is appended only when it is a
`Result`. -/
def transformCollections (tg : String) (src : Value) (schema : Schema) :
    Except String Value :=
  if _h : isNilV src then .ok .vnil
  else collLoop tg (elemsOf (derefOnce src)) schema []
termination_by (4 * vsize src + 1, 0)
decreasing_by
  all_goals simp_wf
  all_goals exact Prod.Lex.left _ _ (collDec src (by simpa using _h))


/-- Loop of `transformCollections`. -/
def collLoop (tg : String) (elems : List Value) (schema : Schema)
    (acc : List Value) : Except String Value :=
  match elems with
  | [] => .ok (.vslice acc)
  | x :: rest =>
    let fieldValueType := getDataType x
    if fieldValueType = .Nil then collLoop tg rest schema acc
    else
      match transformValue tg x fieldValueType schema with
      | .error e => .error e
      | .ok value =>
        if fieldValueType = .Other then collLoop tg rest schema (acc ++ [value])
        else
          match value with
          | .vresult es => collLoop tg rest schema (acc ++ [Value.vresult es])
          | _ => collLoop tg rest schema acc
termination_by (4 * vlsize elems, 0)
decreasing_by
  all_goals simp_wf
  all_goals first
    | exact Prod.Lex.left _ _ (vlsize_cons_head _ _ _)
    | exact Prod.Lex.left _ _ (vlsize_cons_tail _ _)

/-- `transformMap`: nil source answers nil; otherwise iterate the map's
entries, skipping nil values, matching each key against the schema. -/
def transformMap (tg : String) (src : Value) (schema : Schema) :
    Except String Value :=
  if _h : isNilV src then .ok .vnil
  else mapLoop tg (entriesOf (derefOnce src)) schema []
termination_by (4 * vsize src + 1, 0)
decreasing_by
  all_goals simp_wf
  all_goals exact Prod.Lex.left _ _ (mapDec src (by simpa using _h))


/-- Outer loop of `transformMap` (`for _, mapValue := range srcValue.MapKeys()`). -/
def mapLoop (tg : String) (entries : List (String × Value)) (schema : Schema)
    (acc : List (String × Value)) : Except String Value :=
  match entries with
  | [] => .ok (.vresult acc)
  | (mkey, mv) :: rest =>
    let fieldValueType := getDataType mv
    if fieldValueType = .Nil then mapLoop tg rest schema acc
    else
      match mapInner tg mkey mv fieldValueType schema schema acc with
      | .error e => .error e
      | .ok acc2 => mapLoop tg rest schema acc2
termination_by (4 * elsize entries, 0)
decreasing_by
  all_goals simp_wf
  all_goals first
    | exact Prod.Lex.left _ _ (elsize_cons_head _ _ _)
    | exact Prod.Lex.left _ _ (elsize_cons_tail _ _)

/-- Inner loop of `transformMap` (`for k, v := range schema`). -/
def mapInner (tg : String) (mkey : String) (mv : Value) (mt : DataType)
    (siter schema : Schema) (acc : List (String × Value)) :
    Except String (List (String × Value)) :=
  match siter with
  | [] => .ok acc
  | (k, sf) :: srest =>
    if sf.Key = mkey then
      let schemaValue := scopeOf sf schema
      match transformValue tg mv mt schemaValue with
      | .error e => .error e
      | .ok value => mapInner tg mkey mv mt srest schema (rinsert acc k value)
    else mapInner tg mkey mv mt srest schema acc
termination_by (4 * (1 + vsize mv), siter.length)
decreasing_by
  all_goals simp_wf
  all_goals first
    | exact Prod.Lex.right _ (by omega)
    | exact Prod.Lex.left _ _ (tv_rank_lt _ _)

end

/-- `execute`: the top-level dispatch (no pointer case). -/
def execute (tg : String) (src : Value) (dataType : DataType) (schema : Schema) :
    Except String Value :=
  if isNilV src then .ok .vnil
  else
    match dataType with
    | .Struct => transformStruct tg src schema
    | .Slice => transformCollections tg src schema
    | .Array => transformCollections tg src schema
    | .Map => transformMap tg src schema
    | _ => .ok .vnil

/-- `Transform`: reject opaque top-level values, then run `execute`.
`tg` is the configured `StructTag` (default `"json"`). -/
def Transform (tg : String) (src : Value) (schema : Schema) :
    Except String Value :=
  let dataType := getDataType src
  if dataType = .Other then .error "Uknown source type"
  else execute tg src dataType schema

/-! ## Basic facts about the engine -/

theorem transformValue_other (tg : String) (s : Value) (f : Schema) :
    transformValue tg s .Other f = .ok s := by
  simp [transformValue]

theorem tagsLookup_false_empty (tags : List (String × String)) (key : String)
    (h : (tagsLookup tags key).2 = false) : (tagsLookup tags key).1 = "" := by
  unfold tagsLookup at h ⊢
  cases hf : tags.find? (fun p => p.1 == key) <;> simp_all

theorem tagLookup_ne_tagerr (tg : String) (allFields : List SField) (fieldName : String) :
    tagLookup tg allFields fieldName ≠ .error "Cannot find tag" := by
  unfold tagLookup
  cases h : allFields.find? (fun p => p.1 == fieldName) with
  | none => simp
  | some field =>
    by_cases h1 : (tagsLookup field.2.1 tg).1 = ""
    · simp [h1]
    · have h2 : ¬((tagsLookup field.2.1 tg).2 = false) :=
        fun hf => h1 (tagsLookup_false_empty _ _ hf)
      simp [h1, h2]

theorem scopeOf_eq_getD (mkey : String) (vOpt : Option Schema) (schema : Schema) :
    scopeOf (.mk mkey vOpt) schema = vOpt.getD schema := by
  cases vOpt <;> simp [scopeOf, SchemaField.Value]

/-- The inner struct loop leaves the accumulator untouched when no schema
entry's `Key` equals the field's tag. -/
theorem structInner_skip (tg : String) (A : List SField) (fld : SField)
    (siter schema : Schema) (acc : List (String × Value)) (tga : String)
    (hlk : tagLookup tg A fld.1 = .ok tga)
    (hk : ∀ p ∈ siter, SchemaField.Key p.2 ≠ tga) :
    structInner tg A fld siter schema acc = .ok acc := by
  induction siter with
  | nil => simp [structInner]
  | cons p rest ih =>
    obtain ⟨k, sf⟩ := p
    have h1 : ¬(SchemaField.Key sf = tga) := hk (k, sf) (by simp)
    rw [structInner, hlk]
    simp only [h1, if_false]
    exact ih (fun q hq => hk q (List.mem_cons_of_mem _ hq))

/-! ## Claim theorems (first batch) -/

/-- C4: a nil source is answered by `(nil, no error)` at `Transform` and at
each of `transformStruct`, `transformCollections`, `transformMap`. -/
theorem claim_C4 (tg : String) (schema f1 f2 f3 : Schema) :
    Transform tg .vnil schema = .ok .vnil ∧
    transformStruct tg .vnil f1 = .ok .vnil ∧
    transformCollections tg .vnil f2 = .ok .vnil ∧
    transformMap tg .vnil f3 = .ok .vnil := by
  refine ⟨?_, ?_, ?_, ?_⟩ <;>
    simp [Transform, execute, getDataType, transformStruct, transformCollections,
          transformMap, isNilV]

/-- C5: a non-nil top-level value classified `Other` (an opaque scalar) is
rejected by `Transform` with the engine's error, while `transformValue`
passes the same value through unchanged at any nesting. -/
theorem claim_C5 (tg : String) (s : Value) (schema f : Schema)
    (h : getDataType s = .Other) :
    Transform tg s schema = .error "Uknown source type" ∧
    transformValue tg s (getDataType s) f = .ok s := by
  constructor
  · simp [Transform, h]
  · rw [h]
    exact transformValue_other tg s f

theorem claim_C5_witness :
    getDataType (.vint 42) = .Other ∧
    (Transform "json" (.vint 42) [] = .error "Uknown source type" ∧
     transformValue "json" (.vint 42) (getDataType (.vint 42)) [] = .ok (.vint 42)) :=
  ⟨rfl, claim_C5 "json" (.vint 42) [] [] rfl⟩

/-- C9: a top-level pointer passes the unsupported-type check but `execute`
has no pointer case, so `Transform` answers `(nil, no error)`. -/
theorem claim_C9 (tg : String) (p : Option Value) (schema : Schema) :
    Transform tg (.vptr p) schema = .ok .vnil := by
  simp [Transform, getDataType, execute, isNilV]

/-- C10: the `"Cannot find tag"` branch of `tagLookup` is unreachable, and
a struct field lacking the configured tag is silently skipped: with every
schema `Key` non-empty, the field contributes nothing to the `Result`. -/
theorem claim_C10 (tg : String) (A : List SField) (fieldName : String)
    (name : String) (tags : List (String × String)) (v : Value) (schema : Schema)
    (habs : tagsLookup tags tg = ("", false))
    (hk : ∀ p ∈ schema, SchemaField.Key p.2 ≠ "") :
    tagLookup tg A fieldName ≠ .error "Cannot find tag" ∧
    transformStruct tg (.vstruct [(name, tags, v)]) schema = .ok (.vresult []) := by
  constructor
  · exact tagLookup_ne_tagerr tg A fieldName
  · have hlk : tagLookup tg [(name, tags, v)] name = .ok "" := by
      simp [tagLookup, habs]
    have hs := structInner_skip tg [(name, tags, v)] (name, tags, v) schema schema [] "" hlk hk
    simp [transformStruct, isNilV, derefOnce, fieldsOf, structLoop, hs]

theorem claim_C10_witness :
    tagsLookup [("xml", "a")] "json" = ("", false) ∧
    (∀ p ∈ [("out", SchemaField.mk "a" none)], SchemaField.Key p.2 ≠ "") ∧
    (tagLookup "json" [] "F" ≠ .error "Cannot find tag" ∧
     transformStruct "json" (.vstruct [("F", [("xml", "a")], .vint 7)])
       [("out", SchemaField.mk "a" none)] = .ok (.vresult [])) := by
  refine ⟨by simp [tagsLookup], by simp [SchemaField.Key], ?_⟩
  exact claim_C10 "json" [] "F" "F" [("xml", "a")] (.vint 7)
    [("out", SchemaField.mk "a" none)] (by simp [tagsLookup])
    (by simp [SchemaField.Key])

/-- C7: the recursive transform of a matched value is scoped by the
entry's `Value` when that holds a `Schema` and by the caller's enclosing
schema otherwise (`Option.getD`), at both match sites (`transformMap` and
`transformStruct`), shown on singleton containers. -/
theorem claim_C7 (tg : String) (mkey k fname : String) (mv v : Value)
    (tags : List (String × String)) (vOpt : Option Schema)
    (hmv : getDataType mv ≠ .Nil) (hv : getDataType v ≠ .Nil)
    (htag : tagsLookup tags tg = (mkey, true)) (hne : mkey ≠ "") :
    transformMap tg (.vmap [(mkey, mv)]) [(k, .mk mkey vOpt)] =
      (transformValue tg mv (getDataType mv) (vOpt.getD [(k, .mk mkey vOpt)])).map
        (fun val => .vresult [(k, val)]) ∧
    transformStruct tg (.vstruct [(fname, tags, v)]) [(k, .mk mkey vOpt)] =
      (transformValue tg v (getDataType v) (vOpt.getD [(k, .mk mkey vOpt)])).map
        (fun val => .vresult [(k, val)]) := by
  constructor
  · rw [← scopeOf_eq_getD mkey vOpt [(k, .mk mkey vOpt)]]
    cases hval : transformValue tg mv (getDataType mv) (scopeOf (.mk mkey vOpt) [(k, .mk mkey vOpt)]) with
    | error e =>
      simp [transformMap, isNilV, derefOnce, entriesOf, mapLoop, mapInner, hmv,
            SchemaField.Key, hval, rinsert, Except.map]
    | ok val =>
      simp [transformMap, isNilV, derefOnce, entriesOf, mapLoop, mapInner, hmv,
            SchemaField.Key, hval, rinsert, Except.map]
  · have hlk : tagLookup tg [(fname, tags, v)] fname = .ok mkey := by
      simp [tagLookup, htag, hne]
    rw [← scopeOf_eq_getD mkey vOpt [(k, .mk mkey vOpt)]]
    cases hval : transformValue tg v (getDataType v) (scopeOf (.mk mkey vOpt) [(k, .mk mkey vOpt)]) with
    | error e =>
      simp [transformStruct, isNilV, derefOnce, fieldsOf, structLoop, structInner,
            hlk, SchemaField.Key, hv, hval, rinsert, Except.map]
    | ok val =>
      simp [transformStruct, isNilV, derefOnce, fieldsOf, structLoop, structInner,
            hlk, SchemaField.Key, hv, hval, rinsert, Except.map]

theorem claim_C7_witness :
    (getDataType (.vint 1) ≠ .Nil ∧ getDataType (.vint 2) ≠ .Nil ∧
     tagsLookup [("json", "a")] "json" = ("a", true) ∧ ("a" : String) ≠ "") ∧
    (transformMap "json" (.vmap [("a", .vint 1)]) [("out", .mk "a" (some [("z", .mk "w" none)]))] =
      (transformValue "json" (.vint 1) (getDataType (.vint 1))
        ((some [("z", SchemaField.mk "w" none)]).getD [("out", .mk "a" (some [("z", .mk "w" none)]))])).map
        (fun val => .vresult [("out", val)]) ∧
     transformStruct "json" (.vstruct [("F", [("json", "a")], .vint 2)])
        [("out", .mk "a" (some [("z", .mk "w" none)]))] =
      (transformValue "json" (.vint 2) (getDataType (.vint 2))
        ((some [("z", SchemaField.mk "w" none)]).getD [("out", .mk "a" (some [("z", .mk "w" none)]))])).map
        (fun val => .vresult [("out", val)])) := by
  refine ⟨⟨by simp [getDataType], by simp [getDataType], by simp [tagsLookup], by simp⟩, ?_⟩
  exact claim_C7 "json" "a" "out" "F" (.vint 1) (.vint 2) [("json", "a")]
    (some [("z", .mk "w" none)]) (by simp [getDataType]) (by simp [getDataType])
    (by simp [tagsLookup]) (by simp)

/-! ## Collection loop lemmas (for C1) -/

theorem collLoop_mem (tg : String) (elems : List Value) (schema : Schema) :
    ∀ (acc out : List Value), collLoop tg elems schema acc = .ok (.vslice out) →
    ∀ y ∈ out, y ∈ acc ∨ (∃ es, y = Value.vresult es) ∨
      (∃ x ∈ elems, getDataType x = .Other ∧ y = x) := by
  induction elems with
  | nil =>
    intro acc out h y hy
    rw [collLoop] at h
    simp only [Except.ok.injEq, Value.vslice.injEq] at h
    subst h
    exact Or.inl hy
  | cons x rest ih =>
    intro acc out h y hy
    rw [collLoop] at h
    by_cases hnil : getDataType x = DataType.Nil
    · simp only [hnil, if_true, reduceIte] at h
      rcases ih acc out h y hy with h1 | h2 | ⟨z, hz, h3⟩
      · exact Or.inl h1
      · exact Or.inr (Or.inl h2)
      · exact Or.inr (Or.inr ⟨z, List.mem_cons_of_mem _ hz, h3⟩)
    · simp only [hnil, if_false, reduceIte] at h
      cases hval : transformValue tg x (getDataType x) schema with
      | error e => rw [hval] at h; simp at h
      | ok value =>
        rw [hval] at h
        by_cases hoth : getDataType x = DataType.Other
        · simp only [hoth, if_true, reduceIte] at h
          have hvx : value = x := by
            have := transformValue_other tg x schema
            rw [hoth] at hval
            rw [hval] at this
            exact (Except.ok.injEq _ _).mp this
          rcases ih _ out h y hy with h1 | h2 | ⟨z, hz, h3⟩
          · rcases List.mem_append.mp h1 with ha | hb
            · exact Or.inl ha
            · simp only [List.mem_singleton] at hb
              exact Or.inr (Or.inr ⟨x, List.mem_cons_self x rest, hoth, by rw [hb, hvx]⟩)
          · exact Or.inr (Or.inl h2)
          · exact Or.inr (Or.inr ⟨z, List.mem_cons_of_mem _ hz, h3⟩)
        · simp only [hoth, if_false, reduceIte] at h
          cases value with
          | vresult es =>
            rcases ih _ out h y hy with h1 | h2 | ⟨z, hz, h3⟩
            · rcases List.mem_append.mp h1 with ha | hb
              · exact Or.inl ha
              · simp only [List.mem_singleton] at hb
                exact Or.inr (Or.inl ⟨es, hb⟩)
            · exact Or.inr (Or.inl h2)
            · exact Or.inr (Or.inr ⟨z, List.mem_cons_of_mem _ hz, h3⟩)
          | _ =>
            first
            | (rcases ih _ out h y hy with h1 | h2 | ⟨z, hz, h3⟩
               · exact Or.inl h1
               · exact Or.inr (Or.inl h2)
               · exact Or.inr (Or.inr ⟨z, List.mem_cons_of_mem _ hz, h3⟩))

theorem collLoop_scalars (tg : String) (xs : List Value) (schema : Schema) :
    ∀ acc : List Value, (∀ x ∈ xs, getDataType x = .Other) →
    collLoop tg xs schema acc = .ok (.vslice (acc ++ xs)) := by
  induction xs with
  | nil => intro acc _; rw [collLoop]; simp
  | cons x rest ih =>
    intro acc hall
    have hx : getDataType x = DataType.Other := hall x (List.mem_cons_self x rest)
    rw [collLoop]
    have hnil : ¬(getDataType x = DataType.Nil) := by rw [hx]; simp
    simp only [hnil, if_false, reduceIte]
    have hval := transformValue_other tg x schema
    rw [hx, hval]
    simp only [hx, if_true, reduceIte]
    rw [ih (acc ++ [x]) (fun z hz => hall z (List.mem_cons_of_mem _ hz))]
    simp

/-- C1, counterexample: a collection of primitive scalars does not yield an
empty sequence; the scalar is appended unchanged. -/
theorem claim_C1_cex :
    transformCollections "json" (.vslice [.vint 1]) [] = .ok (.vslice [.vint 1]) ∧
    (Except.ok (Value.vslice [Value.vint 1]) : Except String Value) ≠ .ok (.vslice []) := by
  constructor
  · simp [transformCollections, isNilV, derefOnce, elemsOf, collLoop,
          transformValue, getDataType]
  · simp

/-- C1, amended: an element of a collection contributes to the output
sequence iff its transformed value is a `Result` or the element itself
classifies as `Other`, in which case it is passed through unchanged; hence
a collection of scalars yields exactly those scalars, not an empty
sequence. -/
theorem claim_C1_amended :
    (∀ (tg : String) (src : Value) (schema : Schema) (out : List Value),
      transformCollections tg src schema = .ok (.vslice out) →
      ∀ y ∈ out, (∃ es, y = Value.vresult es) ∨
        (∃ x ∈ elemsOf (derefOnce src), getDataType x = .Other ∧ y = x)) ∧
    (∀ (tg : String) (xs : List Value) (schema : Schema),
      (∀ x ∈ xs, getDataType x = .Other) →
      transformCollections tg (.vslice xs) schema = .ok (.vslice xs)) := by
  constructor
  · intro tg src schema out h y hy
    rw [transformCollections] at h
    by_cases hsn : isNilV src
    · simp [hsn] at h
    · simp only [hsn, dite_false] at h
      rcases collLoop_mem tg _ schema [] out h y hy with h1 | h2 | h3
      · simp at h1
      · exact Or.inl h2
      · exact Or.inr h3
  · intro tg xs schema hall
    have hc := collLoop_scalars tg xs schema [] hall
    simp only [List.nil_append] at hc
    simp [transformCollections, isNilV, derefOnce, elemsOf, hc]

theorem claim_C1_amended_witness :
    (∀ x ∈ [Value.vint 1], getDataType x = .Other) ∧
    transformCollections "json" (.vslice [.vint 1]) [] = .ok (.vslice [.vint 1]) := by
  constructor
  · intro x hx; simp only [List.mem_singleton] at hx; rw [hx]; rfl
  · exact claim_C1_amended.2 "json" [.vint 1] []
      (fun x hx => by simp only [List.mem_singleton] at hx; rw [hx]; rfl)

/-- C2, counterexample: a struct field holding a nil pointer classifies as
`Pointer`, not `Nil`; it is not skipped, and an explicit nil placeholder is
inserted under the matching output key. -/
theorem claim_C2_cex :
    transformStruct "json" (.vstruct [("Author", [("json", "author")], .vptr none)])
        [("book_author", .mk "author" none)] =
      .ok (.vresult [("book_author", .vnil)]) ∧
    rlookup [("book_author", Value.vnil)] "book_author" = some .vnil ∧
    (Except.ok (Value.vresult [("book_author", Value.vnil)]) : Except String Value) ≠
      .ok (.vresult []) := by
  refine ⟨?_, by simp [rlookup], by simp⟩
  simp [transformStruct, isNilV, derefOnce, fieldsOf, structLoop, structInner,
        tagLookup, tagsLookup, getDataType, getPtrValue, transformValue, scopeOf,
        SchemaField.Key, SchemaField.Value, rinsert]

/-- C8, counterexample: the `Result` produced from a struct with a nil
pointer field contains a nil entry; re-projecting it through the identity
schema over its keys drops that entry, so the round trip is not the
identity. -/
theorem claim_C8_cex :
    transformStruct "json" (.vstruct [("Author", [("json", "author")], .vptr none)])
        [("book_author", .mk "author" none)] =
      .ok (.vresult [("book_author", .vnil)]) ∧
    Transform "json" (.vresult [("book_author", .vnil)])
        [("book_author", .mk "book_author" none)] = .ok (.vresult []) ∧
    Value.vresult ([] : List (String × Value)) ≠ .vresult [("book_author", .vnil)] := by
  refine ⟨?_, ?_, by simp⟩
  · simp [transformStruct, isNilV, derefOnce, fieldsOf, structLoop, structInner,
          tagLookup, tagsLookup, getDataType, getPtrValue, transformValue, scopeOf,
          SchemaField.Key, SchemaField.Value, rinsert]
  · simp [Transform, execute, getDataType, isNilV, transformMap, derefOnce,
          entriesOf, mapLoop]

/-! ## Identity re-projection (for C8) -/

theorem rinsert_rinsert_same (acc : List (String × Value)) (k : String) (v : Value) :
    rinsert (rinsert acc k v) k v = rinsert acc k v := by
  induction acc with
  | nil => simp [rinsert]
  | cons e rest ih =>
    obtain ⟨k0, v0⟩ := e
    by_cases h : k0 = k
    · simp [rinsert, h]
    · simp [rinsert, h, ih]

theorem rinsert_fresh (acc : List (String × Value)) (k : String) (v : Value)
    (h : k ∉ acc.map Prod.fst) : rinsert acc k v = acc ++ [(k, v)] := by
  induction acc with
  | nil => simp [rinsert]
  | cons e rest ih =>
    obtain ⟨k0, v0⟩ := e
    simp only [List.map_cons, List.mem_cons] at h
    push_neg at h
    simp [rinsert, Ne.symm h.1, ih h.2]

/-- After one identity write, further passes over identity-shaped schema
entries rewrite the same binding and leave the accumulator fixed. -/
theorem mapInner_id_post (tg : String) (mkey : String) (v : Value)
    (siter S : Schema) (acc : List (String × Value))
    (hid : ∀ p ∈ siter, SchemaField.Key p.2 = mkey → p.1 = mkey) :
    mapInner tg mkey v .Other siter S (rinsert acc mkey v) = .ok (rinsert acc mkey v) := by
  induction siter with
  | nil => rw [mapInner]
  | cons p rest ih =>
    obtain ⟨k, sf⟩ := p
    rw [mapInner]
    by_cases h : SchemaField.Key sf = mkey
    · have hk : k = mkey := hid (k, sf) (by simp) h
      subst hk
      simp only [h, if_true, reduceIte, transformValue_other, rinsert_rinsert_same]
      exact ih (fun q hq hq2 => hid q (List.mem_cons_of_mem _ hq) hq2)
    · simp only [h, if_false, reduceIte]
      exact ih (fun q hq hq2 => hid q (List.mem_cons_of_mem _ hq) hq2)

/-- A single pass of the inner map loop over identity-shaped schema entries
containing a match for `mkey` writes exactly the binding `mkey ↦ v`. -/
theorem mapInner_id (tg : String) (mkey : String) (v : Value)
    (siter S : Schema) (acc : List (String × Value))
    (hid : ∀ p ∈ siter, SchemaField.Key p.2 = mkey → p.1 = mkey)
    (hmem : ∃ p ∈ siter, SchemaField.Key p.2 = mkey) :
    mapInner tg mkey v .Other siter S acc = .ok (rinsert acc mkey v) := by
  induction siter with
  | nil => simp at hmem
  | cons p rest ih =>
    obtain ⟨k, sf⟩ := p
    rw [mapInner]
    by_cases h : SchemaField.Key sf = mkey
    · have hk : k = mkey := hid (k, sf) (by simp) h
      subst hk
      simp only [h, if_true, reduceIte, transformValue_other]
      exact mapInner_id_post _ _ _ _ _ _
        (fun q hq hq2 => hid q (List.mem_cons_of_mem _ hq) hq2)
    · simp only [h, if_false, reduceIte]
      rcases hmem with ⟨q, hq, hq2⟩
      rcases List.mem_cons.mp hq with he | ht
      · rw [he] at hq2; exact absurd hq2 h
      · exact ih (fun r hr hr2 => hid r (List.mem_cons_of_mem _ hr) hr2) ⟨q, ht, hq2⟩

/-- The outer map loop under an identity-shaped schema appends the source
entries to the accumulator in order. -/
theorem mapLoop_id (tg : String) (es : List (String × Value)) (S : Schema) :
    ∀ acc : List (String × Value),
    (∀ e ∈ es, getDataType e.2 = .Other) →
    (∀ e ∈ es, (∀ p ∈ S, SchemaField.Key p.2 = e.1 → p.1 = e.1) ∧
      ∃ p ∈ S, SchemaField.Key p.2 = e.1) →
    (∀ e ∈ es, e.1 ∉ acc.map Prod.fst) →
    (es.map Prod.fst).Nodup →
    mapLoop tg es S acc = .ok (.vresult (acc ++ es)) := by
  induction es with
  | nil => intro acc _ _ _ _; rw [mapLoop]; simp
  | cons e rest ih =>
    intro acc hall hs hfresh hnd
    obtain ⟨k, v⟩ := e
    have ho : getDataType v = DataType.Other := hall (k, v) (by simp)
    rw [mapLoop]
    have hnn : ¬(getDataType v = DataType.Nil) := by rw [ho]; simp
    simp only [hnn, if_false, reduceIte, ho,
      mapInner_id tg k v S S acc (hs (k, v) (by simp)).1 (hs (k, v) (by simp)).2,
      rinsert_fresh acc k v (hfresh (k, v) (by simp))]
    simp only [List.map_cons, List.nodup_cons] at hnd
    rw [ih (acc ++ [(k, v)]) (fun q hq => hall q (List.mem_cons_of_mem _ hq))
        (fun q hq => hs q (List.mem_cons_of_mem _ hq))
        (fun q hq => by
          simp only [List.map_append, List.mem_append, List.map_cons]
          push_neg
          exact ⟨hfresh q (List.mem_cons_of_mem _ hq),
            by simp only [List.map_nil, List.mem_singleton]
               intro hqk
               exact hnd.1 (hqk ▸ List.mem_map_of_mem Prod.fst hq)⟩)
        hnd.2]
    simp

/-- The identity schema over a `Result`'s keys: every output key maps to a
`SchemaField` whose `Key` is that same key, with no nested schema. -/
def idSchema (es : List (String × Value)) : Schema :=
  es.map (fun e => (e.1, SchemaField.mk e.1 none))

/-- C8, amended: re-projecting a flat `Result` — one whose entries all hold
opaque scalar values and whose keys are distinct, as map-produced `Result`s
are — through the identity schema over its keys reproduces it exactly.
`Result`s holding nil placeholders or nested `Result`s/sequences are not
reproduced (nil entries are dropped; nested values are re-projected under
the enclosing identity schema). -/
theorem claim_C8_amended (tg : String) (es : List (String × Value))
    (hall : ∀ e ∈ es, getDataType e.2 = .Other)
    (hnd : (es.map Prod.fst).Nodup) :
    Transform tg (.vresult es) (idSchema es) = .ok (.vresult es) := by
  have h2 : ∀ e ∈ es, (∀ p ∈ idSchema es, SchemaField.Key p.2 = e.1 → p.1 = e.1) ∧
      ∃ p ∈ idSchema es, SchemaField.Key p.2 = e.1 := by
    intro e he
    constructor
    · intro p hp hkey
      rcases List.mem_map.mp hp with ⟨a, _, ha2⟩
      rw [← ha2] at hkey ⊢
      simp only [SchemaField.Key] at hkey
      simp [hkey]
    · exact ⟨(e.1, SchemaField.mk e.1 none),
        List.mem_map.mpr ⟨e, he, rfl⟩, by simp [SchemaField.Key]⟩
  have hml := mapLoop_id tg es (idSchema es) [] hall h2 (by simp) hnd
  simp [Transform, getDataType, execute, isNilV, transformMap, derefOnce, entriesOf, hml]

theorem claim_C8_amended_witness :
    (∀ e ∈ [(("a" : String), Value.vint 1), ("b", Value.vstr "x")], getDataType e.2 = .Other) ∧
    (([("a", Value.vint 1), ("b", Value.vstr "x")].map Prod.fst).Nodup) ∧
    Transform "json" (.vresult [("a", .vint 1), ("b", .vstr "x")])
        (idSchema [("a", .vint 1), ("b", .vstr "x")]) =
      .ok (.vresult [("a", .vint 1), ("b", .vstr "x")]) := by
  refine ⟨?_, by simp, ?_⟩
  · intro e he
    rcases List.mem_cons.mp he with h | h
    · rw [h]; rfl
    · simp only [List.mem_singleton] at h; rw [h]; rfl
  · exact claim_C8_amended "json" [("a", .vint 1), ("b", .vstr "x")]
      (by intro e he
          rcases List.mem_cons.mp he with h | h
          · rw [h]; rfl
          · simp only [List.mem_singleton] at h; rw [h]; rfl)
      (by simp)

/-! ## Nil-skipping (for C2) -/

theorem getDataType_nil_iff (v : Value) : getDataType v = DataType.Nil ↔ v = .vnil := by
  cases v <;> simp [getDataType]

theorem isNilV_false_iff (v : Value) : isNilV v = false ↔ v ≠ .vnil := by
  cases v <;> simp [isNilV]

/-- Entries whose value is the nil interface contribute nothing to the map
loop: filtering them away does not change the outcome. -/
theorem mapLoop_filter (tg : String) (S : Schema) :
    ∀ (es acc : List (String × Value)),
    mapLoop tg es S acc = mapLoop tg (es.filter (fun e => !isNilV e.2)) S acc := by
  intro es
  induction es with
  | nil => intro acc; rw [List.filter_nil]
  | cons e rest ih =>
    intro acc
    obtain ⟨k, v⟩ := e
    by_cases hv : v = Value.vnil
    · subst hv
      have hc : (!isNilV Value.vnil) = false := by simp [isNilV]
      simp only [List.filter_cons, hc, Bool.false_eq_true, if_false]
      rw [mapLoop]
      have hn : getDataType Value.vnil = DataType.Nil := rfl
      simp only [hn, if_true, reduceIte]
      exact ih acc
    · have hc : (!isNilV v) = true := by
        simp only [Bool.not_eq_true']
        exact (isNilV_false_iff v).mpr hv
      simp only [List.filter_cons, hc, if_true, reduceIte]
      have hn : ¬(getDataType v = DataType.Nil) := fun h => hv ((getDataType_nil_iff v).mp h)
      rw [mapLoop, mapLoop]
      simp only [hn, if_false, reduceIte]
      cases mapInner tg k v (getDataType v) S S acc with
      | error e => rfl
      | ok acc2 => exact ih acc2

theorem find?_self (fs : List SField) (fld : SField)
    (hnd : (fs.map Prod.fst).Nodup) (hm : fld ∈ fs) :
    fs.find? (fun p => p.1 == fld.1) = some fld := by
  induction fs with
  | nil => simp at hm
  | cons f rest ih =>
    simp only [List.map_cons, List.nodup_cons] at hnd
    rcases List.mem_cons.mp hm with he | ht
    · rw [he]
      simp [List.find?]
    · have hne2 : (f.1 == fld.1) = false := by
        simp only [beq_eq_false_iff_ne]
        intro h
        exact hnd.1 (h ▸ List.mem_map_of_mem Prod.fst ht)
      simp only [List.find?, hne2]
      exact ih hnd.2 ht

theorem tagLookup_ok_of_mem (tg : String) (A : List SField) (nm : String)
    (h : ∃ q ∈ A, q.1 = nm) : ∃ t, tagLookup tg A nm = .ok t := by
  unfold tagLookup
  cases hf : A.find? (fun p => p.1 == nm) with
  | none =>
    rcases h with ⟨q, hq, hq2⟩
    have := List.find?_eq_none.mp hf q hq
    simp [hq2] at this
  | some field =>
    by_cases h1 : (tagsLookup field.2.1 tg).1 = ""
    · exact ⟨"", by simp [h1]⟩
    · have h2 : ¬((tagsLookup field.2.1 tg).2 = false) :=
        fun hx => h1 (tagsLookup_false_empty _ _ hx)
      exact ⟨(tagsLookup field.2.1 tg).1, by simp [h1, h2]⟩

/-- A field whose value classifies as `Nil` leaves the accumulator alone
(the inner loop hits `continue` on every matching schema entry). -/
theorem structInner_nilfield (tg : String) (A : List SField) (fld : SField)
    (hn : getDataType fld.2.2 = DataType.Nil) (t : String)
    (hlk : tagLookup tg A fld.1 = .ok t) :
    ∀ (siter schema : Schema) (acc : List (String × Value)),
    structInner tg A fld siter schema acc = .ok acc := by
  intro siter
  induction siter with
  | nil => intro schema acc; rw [structInner]
  | cons p rest ih =>
    intro schema acc
    obtain ⟨k, sf⟩ := p
    rw [structInner, hlk]
    by_cases h : SchemaField.Key sf = t
    · simp only [h, if_true, reduceIte, hn]
      exact ih schema acc
    · simp only [h, if_false, reduceIte]
      exact ih schema acc

/-- The inner loop depends on the field list only through the tag looked
up for the field. -/
theorem structInner_congr (tg : String) (A B : List SField) (fld : SField)
    (h : tagLookup tg A fld.1 = tagLookup tg B fld.1) :
    ∀ (siter schema : Schema) (acc : List (String × Value)),
    structInner tg A fld siter schema acc = structInner tg B fld siter schema acc := by
  intro siter
  induction siter with
  | nil => intro schema acc; rw [structInner, structInner]
  | cons p rest ih =>
    intro schema acc
    obtain ⟨k, sf⟩ := p
    rw [structInner, structInner, h]
    cases tagLookup tg B fld.1 with
    | error e => rfl
    | ok t =>
      by_cases hk : SchemaField.Key sf = t
      · simp only [hk, if_true, reduceIte]
        by_cases hnl : getDataType fld.2.2 = DataType.Nil
        · simp only [hnl, if_true, reduceIte]
          exact ih schema acc
        · simp only [hnl, if_false, reduceIte]
          cases transformValue tg fld.2.2 (getDataType fld.2.2) (scopeOf sf schema) with
          | error e => rfl
          | ok value => exact ih schema (rinsert acc k value)
      · simp only [hk, if_false, reduceIte]
        exact ih schema acc

theorem tagLookup_filter (tg : String) (fs : List SField) (fld : SField)
    (hnd : (fs.map Prod.fst).Nodup) (hm : fld ∈ fs) (hk : (!isNilV fld.2.2) = true) :
    tagLookup tg fs fld.1 = tagLookup tg (fs.filter (fun f => !isNilV f.2.2)) fld.1 := by
  have h1 := find?_self fs fld hnd hm
  have hm2 : fld ∈ fs.filter (fun f => !isNilV f.2.2) := List.mem_filter.mpr ⟨hm, hk⟩
  have hnd2 : ((fs.filter (fun f => !isNilV f.2.2)).map Prod.fst).Nodup :=
    hnd.sublist (List.Sublist.map Prod.fst (List.filter_sublist fs))
  have h2 := find?_self _ fld hnd2 hm2
  unfold tagLookup
  rw [h1, h2]

/-- Fields whose value is the nil interface contribute nothing to the
struct loop: filtering them away does not change the outcome (field names
must be distinct, as they are on a Go struct type). -/
theorem structLoop_filter (tg : String) (fs : List SField) (schema : Schema)
    (hnd : (fs.map Prod.fst).Nodup) :
    ∀ (flds : List SField) (acc : List (String × Value)), (∀ fld ∈ flds, fld ∈ fs) →
    structLoop tg fs flds schema acc =
      structLoop tg (fs.filter (fun f => !isNilV f.2.2))
        (flds.filter (fun f => !isNilV f.2.2)) schema acc := by
  intro flds
  induction flds with
  | nil =>
    intro acc _
    rw [List.filter_nil, structLoop, structLoop]
  | cons fld rest ih =>
    intro acc hmem
    have hfs : fld ∈ fs := hmem fld (by simp)
    by_cases hkeep : (!isNilV fld.2.2) = true
    · simp only [List.filter_cons, hkeep, if_true, reduceIte]
      rw [structLoop, structLoop]
      rw [structInner_congr tg fs (fs.filter (fun f => !isNilV f.2.2)) fld
        (tagLookup_filter tg fs fld hnd hfs hkeep) schema schema acc]
      cases structInner tg (fs.filter (fun f => !isNilV f.2.2)) fld schema schema acc with
      | error e => rfl
      | ok acc2 => exact ih acc2 (fun q hq => hmem q (List.mem_cons_of_mem _ hq))
    · have hkf : (!isNilV fld.2.2) = false := by
        cases hb : (!isNilV fld.2.2) with
        | false => rfl
        | true => exact absurd hb hkeep
      simp only [List.filter_cons, hkf, Bool.false_eq_true, if_false]
      have hn : getDataType fld.2.2 = DataType.Nil := by
        rw [getDataType_nil_iff]
        have : isNilV fld.2.2 = true := by
          cases hb : isNilV fld.2.2 with
          | true => rfl
          | false => rw [hb] at hkf; simp at hkf
        cases hv : fld.2.2 <;> rw [hv] at this <;> simp [isNilV] at this <;> rfl
      obtain ⟨t, hlk⟩ := tagLookup_ok_of_mem tg fs fld.1 ⟨fld, hfs, rfl⟩
      rw [structLoop]
      rw [structInner_nilfield tg fs fld hn t hlk schema schema acc]
      exact ih acc (fun q hq => hmem q (List.mem_cons_of_mem _ hq))

/-- C2, amended: a source map entry or struct field whose value classifies
as `Nil` — the nil interface value — is skipped entirely (filtering such
elements away leaves the output unchanged).  A field holding a typed nil
pointer, however, classifies as `Pointer`, is not skipped, and yields an
explicit nil placeholder under the matching output key. -/
theorem claim_C2_amended :
    (∀ (tg : String) (es : List (String × Value)) (S : Schema),
      transformMap tg (.vmap es) S =
        transformMap tg (.vmap (es.filter (fun e => !isNilV e.2))) S) ∧
    (∀ (tg : String) (fs : List SField) (S : Schema),
      (fs.map Prod.fst).Nodup →
      transformStruct tg (.vstruct fs) S =
        transformStruct tg (.vstruct (fs.filter (fun f => !isNilV f.2.2))) S) := by
  constructor
  · intro tg es S
    have h := mapLoop_filter tg S es []
    simp [transformMap, isNilV, derefOnce, entriesOf, h]
  · intro tg fs S hnd
    have h := structLoop_filter tg fs S hnd fs [] (fun q hq => hq)
    simp [transformStruct, isNilV, derefOnce, fieldsOf, h]

theorem claim_C2_amended_witness :
    (([("A", ([] : List (String × String)), Value.vnil)].map Prod.fst).Nodup) ∧
    transformStruct "json" (.vstruct [("A", [], Value.vnil)]) [("out", .mk "a" none)] =
      transformStruct "json"
        (.vstruct ([("A", ([] : List (String × String)), Value.vnil)].filter
          (fun f => !isNilV f.2.2))) [("out", .mk "a" none)] := by
  refine ⟨by simp, ?_⟩
  exact claim_C2_amended.2 "json" [("A", [], Value.vnil)] [("out", .mk "a" none)] (by simp)

/-! ## Totality: the transformer never returns an error -/

theorem mem_flsize (fld : SField) (fs : List SField) (h : fld ∈ fs) :
    vsize fld.2.2 < flsize fs := by
  induction fs with
  | nil => simp at h
  | cons f rest ih =>
    obtain ⟨a, b, v⟩ := f
    rcases List.mem_cons.mp h with he | ht
    · rw [he]
      have := flsize_pos rest
      simp only [flsize]
      omega
    · have := ih ht
      simp only [flsize]
      omega

theorem mem_elsize (e : String × Value) (es : List (String × Value)) (h : e ∈ es) :
    vsize e.2 < elsize es := by
  induction es with
  | nil => simp at h
  | cons f rest ih =>
    obtain ⟨a, v⟩ := f
    rcases List.mem_cons.mp h with he | ht
    · rw [he]
      have := elsize_pos rest
      simp only [elsize]
      omega
    · have := ih ht
      simp only [elsize]
      omega

theorem mem_vlsize (x : Value) (xs : List Value) (h : x ∈ xs) :
    vsize x < vlsize xs := by
  induction xs with
  | nil => simp at h
  | cons y rest ih =>
    rcases List.mem_cons.mp h with he | ht
    · rw [he]
      have := vlsize_pos rest
      simp only [vlsize]
      omega
    · have := ih ht
      simp only [vlsize]
      omega

theorem structInner_ok (tg : String) (A : List SField) (fld : SField)
    (hmem : ∃ q ∈ A, q.1 = fld.1)
    (ihv : ∀ f2, ∃ v, transformValue tg fld.2.2 (getDataType fld.2.2) f2 = .ok v) :
    ∀ (siter schema : Schema) (acc : List (String × Value)),
    ∃ acc2, structInner tg A fld siter schema acc = .ok acc2 := by
  intro siter
  induction siter with
  | nil => intro schema acc; exact ⟨acc, by rw [structInner]⟩
  | cons p rest ih =>
    intro schema acc
    obtain ⟨k, sf⟩ := p
    obtain ⟨t, hlk⟩ := tagLookup_ok_of_mem tg A fld.1 hmem
    by_cases hk : SchemaField.Key sf = t
    · by_cases hn : getDataType fld.2.2 = DataType.Nil
      · obtain ⟨acc2, h2⟩ := ih schema acc
        exact ⟨acc2, by rw [structInner, hlk]; simp only [hk, if_true, reduceIte, hn, h2]⟩
      · obtain ⟨v, hv⟩ := ihv (scopeOf sf schema)
        obtain ⟨acc2, h2⟩ := ih schema (rinsert acc k v)
        exact ⟨acc2, by rw [structInner, hlk]; simp only [hk, if_true, reduceIte, hn, if_false, hv, h2]⟩
    · obtain ⟨acc2, h2⟩ := ih schema acc
      exact ⟨acc2, by rw [structInner, hlk]; simp only [hk, if_false, reduceIte, h2]⟩

theorem structLoop_ok (tg : String) (A : List SField) (schema : Schema) :
    ∀ (flds : List SField) (acc : List (String × Value)),
    (∀ fld ∈ flds, fld ∈ A) →
    (∀ fld ∈ flds, ∀ f2, ∃ v, transformValue tg fld.2.2 (getDataType fld.2.2) f2 = .ok v) →
    ∃ out, structLoop tg A flds schema acc = .ok (.vresult out) := by
  intro flds
  induction flds with
  | nil => intro acc _ _; exact ⟨acc, by rw [structLoop]⟩
  | cons fld rest ih =>
    intro acc hsub hiv
    obtain ⟨acc2, h2⟩ := structInner_ok tg A fld
      ⟨fld, hsub fld (by simp), rfl⟩ (hiv fld (by simp)) schema schema acc
    obtain ⟨out, hout⟩ := ih acc2 (fun q hq => hsub q (List.mem_cons_of_mem _ hq))
      (fun q hq => hiv q (List.mem_cons_of_mem _ hq))
    exact ⟨out, by rw [structLoop]; simp only [h2, hout]⟩

theorem mapInner_ok (tg : String) (mkey : String) (mv : Value)
    (ihv : ∀ f2, ∃ v, transformValue tg mv (getDataType mv) f2 = .ok v) :
    ∀ (siter schema : Schema) (acc : List (String × Value)),
    ∃ acc2, mapInner tg mkey mv (getDataType mv) siter schema acc = .ok acc2 := by
  intro siter
  induction siter with
  | nil => intro schema acc; exact ⟨acc, by rw [mapInner]⟩
  | cons p rest ih =>
    intro schema acc
    obtain ⟨k, sf⟩ := p
    by_cases hk : SchemaField.Key sf = mkey
    · obtain ⟨v, hv⟩ := ihv (scopeOf sf schema)
      obtain ⟨acc2, h2⟩ := ih schema (rinsert acc k v)
      exact ⟨acc2, by rw [mapInner]; simp only [hk, if_true, reduceIte, hv, h2]⟩
    · obtain ⟨acc2, h2⟩ := ih schema acc
      exact ⟨acc2, by rw [mapInner]; simp only [hk, if_false, reduceIte, h2]⟩

theorem mapLoop_ok (tg : String) (schema : Schema) :
    ∀ (es : List (String × Value)) (acc : List (String × Value)),
    (∀ e ∈ es, ∀ f2, ∃ v, transformValue tg e.2 (getDataType e.2) f2 = .ok v) →
    ∃ out, mapLoop tg es schema acc = .ok (.vresult out) := by
  intro es
  induction es with
  | nil => intro acc _; exact ⟨acc, by rw [mapLoop]⟩
  | cons e rest ih =>
    intro acc hiv
    obtain ⟨k, v⟩ := e
    by_cases hn : getDataType v = DataType.Nil
    · obtain ⟨out, hout⟩ := ih acc (fun q hq => hiv q (List.mem_cons_of_mem _ hq))
      exact ⟨out, by rw [mapLoop]; simp only [hn, if_true, reduceIte, hout]⟩
    · obtain ⟨acc2, h2⟩ := mapInner_ok tg k v (hiv (k, v) (by simp)) schema schema acc
      obtain ⟨out, hout⟩ := ih acc2 (fun q hq => hiv q (List.mem_cons_of_mem _ hq))
      exact ⟨out, by rw [mapLoop]; simp only [hn, if_false, reduceIte, h2, hout]⟩

theorem collLoop_ok (tg : String) (schema : Schema) :
    ∀ (elems : List Value) (acc : List Value),
    (∀ x ∈ elems, ∀ f2, ∃ v, transformValue tg x (getDataType x) f2 = .ok v) →
    ∃ out, collLoop tg elems schema acc = .ok (.vslice out) := by
  intro elems
  induction elems with
  | nil => intro acc _; exact ⟨acc, by rw [collLoop]⟩
  | cons x rest ih =>
    intro acc hiv
    by_cases hn : getDataType x = DataType.Nil
    · obtain ⟨out, hout⟩ := ih acc (fun q hq => hiv q (List.mem_cons_of_mem _ hq))
      exact ⟨out, by rw [collLoop]; simp only [hn, if_true, reduceIte, hout]⟩
    · obtain ⟨v, hv⟩ := hiv x (by simp) schema
      by_cases ho : getDataType x = DataType.Other
      · obtain ⟨out, hout⟩ := ih (acc ++ [v]) (fun q hq => hiv q (List.mem_cons_of_mem _ hq))
        refine ⟨out, ?_⟩
        rw [collLoop]
        simp only [hn, if_false, reduceIte, hv]
        simp only [ho, reduceIte, hout]
      · cases v with
        | vresult es =>
          obtain ⟨out, hout⟩ := ih (acc ++ [Value.vresult es])
            (fun q hq => hiv q (List.mem_cons_of_mem _ hq))
          exact ⟨out, by rw [collLoop]; simp only [hn, if_false, reduceIte, hv, ho, hout]⟩
        | _ =>
          first
          | (obtain ⟨out, hout⟩ := ih acc (fun q hq => hiv q (List.mem_cons_of_mem _ hq))
             exact ⟨out, by rw [collLoop]; simp only [hn, if_false, reduceIte, hv, ho, hout]⟩)

/-- The transformer is total: for every source value and schema,
`transformValue` (called, as the code always does, with the value's own
data type) returns `ok`; no error is reachable. -/
theorem transformValue_total (tg : String) :
    ∀ (n : Nat) (s : Value) (f : Schema), vsize s ≤ n →
    ∃ v, transformValue tg s (getDataType s) f = .ok v := by
  intro n
  induction n using Nat.strong_induction_on with
  | _ n ih =>
    intro s f hs
    cases s with
    | vnil => exact ⟨.vnil, by rw [transformValue.eq_def]; simp [getDataType]⟩
    | vbool b => exact ⟨.vbool b, transformValue_other tg _ f⟩
    | vint i => exact ⟨.vint i, transformValue_other tg _ f⟩
    | vstr t => exact ⟨.vstr t, transformValue_other tg _ f⟩
    | vtime => exact ⟨.vtime, by rw [transformValue.eq_def]; simp [getDataType, isCustomStruct]⟩
    | vstruct fs =>
      have hihv : ∀ fld ∈ fs, ∀ f2, ∃ v,
          transformValue tg fld.2.2 (getDataType fld.2.2) f2 = .ok v := by
        intro fld hfld f2
        have h1 : vsize fld.2.2 < vsize (Value.vstruct fs) := by
          have := mem_flsize fld fs hfld
          simp only [vsize]
          omega
        exact ih (vsize fld.2.2) (lt_of_lt_of_le h1 hs) fld.2.2 f2 (le_refl _)
      obtain ⟨out, hout⟩ := structLoop_ok tg fs f fs [] (fun q h => h) hihv
      exact ⟨.vresult out, by
        rw [transformValue.eq_def]
        simp [getDataType, isCustomStruct, transformStruct, isNilV, derefOnce, fieldsOf, hout]⟩
    | vmap es =>
      have hihv : ∀ e ∈ es, ∀ f2, ∃ v,
          transformValue tg e.2 (getDataType e.2) f2 = .ok v := by
        intro e he f2
        have h1 : vsize e.2 < vsize (Value.vmap es) := by
          have := mem_elsize e es he
          simp only [vsize]
          omega
        exact ih (vsize e.2) (lt_of_lt_of_le h1 hs) e.2 f2 (le_refl _)
      obtain ⟨out, hout⟩ := mapLoop_ok tg f es [] hihv
      exact ⟨.vresult out, by
        rw [transformValue.eq_def]
        simp [getDataType, transformMap, isNilV, derefOnce, entriesOf, hout]⟩
    | vresult es =>
      have hihv : ∀ e ∈ es, ∀ f2, ∃ v,
          transformValue tg e.2 (getDataType e.2) f2 = .ok v := by
        intro e he f2
        have h1 : vsize e.2 < vsize (Value.vresult es) := by
          have := mem_elsize e es he
          simp only [vsize]
          omega
        exact ih (vsize e.2) (lt_of_lt_of_le h1 hs) e.2 f2 (le_refl _)
      obtain ⟨out, hout⟩ := mapLoop_ok tg f es [] hihv
      exact ⟨.vresult out, by
        rw [transformValue.eq_def]
        simp [getDataType, transformMap, isNilV, derefOnce, entriesOf, hout]⟩
    | vslice xs =>
      have hihv : ∀ x ∈ xs, ∀ f2, ∃ v,
          transformValue tg x (getDataType x) f2 = .ok v := by
        intro x hx f2
        have h1 : vsize x < vsize (Value.vslice xs) := by
          have := mem_vlsize x xs hx
          simp only [vsize]
          omega
        exact ih (vsize x) (lt_of_lt_of_le h1 hs) x f2 (le_refl _)
      obtain ⟨out, hout⟩ := collLoop_ok tg f xs [] hihv
      exact ⟨.vslice out, by
        rw [transformValue.eq_def]
        simp [getDataType, transformCollections, isNilV, derefOnce, elemsOf, hout]⟩
    | varray xs =>
      have hihv : ∀ x ∈ xs, ∀ f2, ∃ v,
          transformValue tg x (getDataType x) f2 = .ok v := by
        intro x hx f2
        have h1 : vsize x < vsize (Value.varray xs) := by
          have := mem_vlsize x xs hx
          simp only [vsize]
          omega
        exact ih (vsize x) (lt_of_lt_of_le h1 hs) x f2 (le_refl _)
      obtain ⟨out, hout⟩ := collLoop_ok tg f xs [] hihv
      exact ⟨.vslice out, by
        rw [transformValue.eq_def]
        simp [getDataType, transformCollections, isNilV, derefOnce, elemsOf, hout]⟩
    | vptr o =>
      cases o with
      | none =>
        exact ⟨.vnil, by
          rw [transformValue.eq_def]
          simp [getDataType, getPtrValue]
          rw [transformValue.eq_def]
          simp [getDataType]⟩
      | some w =>
        have h1 : vsize w < vsize (Value.vptr (some w)) := by simp only [vsize]; omega
        obtain ⟨v, hv⟩ := ih (vsize w) (lt_of_lt_of_le h1 hs) w f (le_refl _)
        exact ⟨v, by
          rw [transformValue.eq_def]
          simp only [getDataType, reduceIte, getPtrValue]
          exact hv⟩

/-- Totality at the values the code actually passes. -/
theorem transformValue_ok (tg : String) (s : Value) (f : Schema) :
    ∃ v, transformValue tg s (getDataType s) f = .ok v :=
  transformValue_total tg (vsize s) s f (le_refl _)

/-! ## Fan-out of duplicate source keys (for C6) -/

theorem rlookup_rinsert_self (acc : List (String × Value)) (k : String) (v : Value) :
    rlookup (rinsert acc k v) k = some v := by
  induction acc with
  | nil => simp [rinsert, rlookup]
  | cons e rest ih =>
    obtain ⟨k0, v0⟩ := e
    by_cases h : k0 = k
    · simp [rinsert, rlookup, h]
    · simp [rinsert, rlookup, h, ih]

theorem rlookup_rinsert_other (acc : List (String × Value)) (k k1 : String) (v : Value)
    (h : k1 ≠ k) : rlookup (rinsert acc k v) k1 = rlookup acc k1 := by
  induction acc with
  | nil => simp [rinsert, rlookup, Ne.symm h]
  | cons e rest ih =>
    obtain ⟨k0, v0⟩ := e
    by_cases h0 : k0 = k
    · subst h0
      simp [rinsert, rlookup, Ne.symm h]
    · simp [rinsert, rlookup, h0, ih]

theorem nodup_assoc_eq {β : Type} (l : List (String × β))
    (hnd : (l.map Prod.fst).Nodup) (k : String) (a b : β)
    (ha : (k, a) ∈ l) (hb : (k, b) ∈ l) : a = b := by
  induction l with
  | nil => simp at ha
  | cons e rest ih =>
    simp only [List.map_cons, List.nodup_cons] at hnd
    rcases List.mem_cons.mp ha with ha1 | ha2 <;> rcases List.mem_cons.mp hb with hb1 | hb2
    · rw [← ha1] at hb1
      exact (((Prod.mk.injEq _ _ _ _).mp hb1).2).symm
    · exfalso
      apply hnd.1
      rw [← ha1]
      simpa using List.mem_map_of_mem Prod.fst hb2
    · exfalso
      apply hnd.1
      rw [← hb1]
      simpa using List.mem_map_of_mem Prod.fst ha2
    · exact ih hnd.2 ha2 hb2

/-- No schema entry keyed `k1` matches the processed map entry: the binding
of `k1` is untouched by the inner loop. -/
theorem mapInner_preserves_aux (tg : String) (mkey : String) (mv : Value) (mt : DataType)
    (k1 : String) :
    ∀ (siter schema : Schema) (acc acc2 : List (String × Value)),
    (∀ sf, (k1, sf) ∈ siter → SchemaField.Key sf ≠ mkey) →
    mapInner tg mkey mv mt siter schema acc = .ok acc2 →
    rlookup acc2 k1 = rlookup acc k1 := by
  intro siter
  induction siter with
  | nil =>
    intro schema acc acc2 _ hmi
    rw [mapInner] at hmi
    simp only [Except.ok.injEq] at hmi
    rw [hmi]
  | cons p rest ih =>
    intro schema acc acc2 hno hmi
    obtain ⟨k, sf⟩ := p
    rw [mapInner] at hmi
    by_cases hk : SchemaField.Key sf = mkey
    · have hkne : k ≠ k1 := by
        intro he
        exact hno sf (by rw [he]; exact List.mem_cons_self _ _) hk
      simp only [hk, if_true, reduceIte] at hmi
      cases htv : transformValue tg mv mt (scopeOf sf schema) with
      | error e => rw [htv] at hmi; simp at hmi
      | ok value =>
        rw [htv] at hmi
        rw [ih schema (rinsert acc k value) acc2
          (fun sf2 h2 => hno sf2 (List.mem_cons_of_mem _ h2)) hmi]
        exact rlookup_rinsert_other acc k k1 value (Ne.symm hkne)
    · simp only [hk, if_false, reduceIte] at hmi
      exact ih schema acc acc2 (fun sf2 h2 => hno sf2 (List.mem_cons_of_mem _ h2)) hmi

/-- If schema entry `(k1, sf1)` matches the processed map entry, the inner
loop ends with `k1` bound to the transform of the value under `sf1`'s
scope. -/
theorem mapInner_writes (tg : String) (mkey : String) (mv : Value) (mt : DataType)
    (k1 : String) (sf1 : SchemaField) (r1 : Value) :
    ∀ (siter schema : Schema) (acc acc2 : List (String × Value)),
    (k1, sf1) ∈ siter →
    (siter.map Prod.fst).Nodup →
    SchemaField.Key sf1 = mkey →
    transformValue tg mv mt (scopeOf sf1 schema) = .ok r1 →
    mapInner tg mkey mv mt siter schema acc = .ok acc2 →
    rlookup acc2 k1 = some r1 := by
  intro siter
  induction siter with
  | nil => intro schema acc acc2 hmem; simp at hmem
  | cons p rest ih =>
    intro schema acc acc2 hmem hnd hkey htv hmi
    obtain ⟨k, sf⟩ := p
    simp only [List.map_cons, List.nodup_cons] at hnd
    rw [mapInner] at hmi
    rcases List.mem_cons.mp hmem with hh | ht
    · have hk1 : k = k1 := ((Prod.mk.injEq _ _ _ _).mp hh.symm).1
      have hsf : sf = sf1 := ((Prod.mk.injEq _ _ _ _).mp hh.symm).2
      subst hk1; subst hsf
      simp only [hkey, if_true, reduceIte, htv] at hmi
      have hnotin : ∀ sf2, (k, sf2) ∈ rest → False := by
        intro sf2 hsf2
        exact hnd.1 (List.mem_map_of_mem Prod.fst hsf2)
      have hpres := mapInner_preserves_aux tg mkey mv mt k rest schema
        (rinsert acc k r1) acc2 (fun sf2 hsf2 => absurd hsf2 (hnotin sf2)) hmi
      rw [hpres, rlookup_rinsert_self]
    · by_cases hk : SchemaField.Key sf = mkey
      · simp only [hk, if_true, reduceIte] at hmi
        cases htv2 : transformValue tg mv mt (scopeOf sf schema) with
        | error e => rw [htv2] at hmi; simp at hmi
        | ok value =>
          rw [htv2] at hmi
          exact ih schema (rinsert acc k value) acc2 ht hnd.2 hkey htv hmi
      · simp only [hk, if_false, reduceIte] at hmi
        exact ih schema acc acc2 ht hnd.2 hkey htv hmi

/-- Map entries whose key differs from `sk` never touch output key `k1`
when the only schema entry keyed `k1` declares source key `sk`. -/
theorem mapLoop_preserves (tg : String) (S : Schema) (k1 sk : String)
    (hS : ∀ sf, (k1, sf) ∈ S → SchemaField.Key sf = sk) :
    ∀ (es acc out : List (String × Value)),
    (∀ e ∈ es, e.1 ≠ sk) →
    mapLoop tg es S acc = .ok (.vresult out) →
    rlookup out k1 = rlookup acc k1 := by
  intro es
  induction es with
  | nil =>
    intro acc out _ hml
    rw [mapLoop] at hml
    simp only [Except.ok.injEq, Value.vresult.injEq] at hml
    rw [← hml]
  | cons e rest ih =>
    intro acc out hne hml
    obtain ⟨mk, mv⟩ := e
    rw [mapLoop] at hml
    by_cases hn : getDataType mv = DataType.Nil
    · simp only [hn, if_true, reduceIte] at hml
      exact ih acc out (fun q hq => hne q (List.mem_cons_of_mem _ hq)) hml
    · simp only [hn, if_false, reduceIte] at hml
      cases hmi : mapInner tg mk mv (getDataType mv) S S acc with
      | error e2 => rw [hmi] at hml; simp at hml
      | ok acc2 =>
        rw [hmi] at hml
        have hp := mapInner_preserves_aux tg mk mv (getDataType mv) k1 S S acc acc2
          (fun sf hsf => by
            rw [hS sf hsf]
            exact fun he => hne (mk, mv) (List.mem_cons_self _ _) he.symm) hmi
        rw [ih acc2 out (fun q hq => hne q (List.mem_cons_of_mem _ hq)) hml, hp]

/-- If the source map contains `(sk, val)` with distinct keys, every schema
entry `(k1, sf1)` with `Key sf1 = sk` ends bound to the transform of `val`
under `sf1`'s scope. -/
theorem mapLoop_writes (tg : String) (S : Schema) (sk : String) (val : Value)
    (k1 : String) (sf1 : SchemaField) (r1 : Value)
    (hk1S : (k1, sf1) ∈ S) (hkey1 : SchemaField.Key sf1 = sk)
    (hndS : (S.map Prod.fst).Nodup)
    (hnn : ¬(getDataType val = DataType.Nil))
    (htv : transformValue tg val (getDataType val) (scopeOf sf1 S) = .ok r1) :
    ∀ (es acc out : List (String × Value)),
    (sk, val) ∈ es →
    (es.map Prod.fst).Nodup →
    mapLoop tg es S acc = .ok (.vresult out) →
    rlookup out k1 = some r1 := by
  intro es
  induction es with
  | nil => intro acc out hmem _ _; simp at hmem
  | cons e rest ih =>
    intro acc out hmem hnd hml
    obtain ⟨mk, mv⟩ := e
    simp only [List.map_cons, List.nodup_cons] at hnd
    rw [mapLoop] at hml
    rcases List.mem_cons.mp hmem with hh | ht
    · have hmk : mk = sk := ((Prod.mk.injEq _ _ _ _).mp hh.symm).1
      have hmv : mv = val := ((Prod.mk.injEq _ _ _ _).mp hh.symm).2
      subst hmk
      subst hmv
      simp only [hnn, if_false, reduceIte] at hml
      cases hmi : mapInner tg mk mv (getDataType mv) S S acc with
      | error e2 => rw [hmi] at hml; simp at hml
      | ok acc2 =>
        rw [hmi] at hml
        have hw := mapInner_writes tg mk mv (getDataType mv) k1 sf1 r1 S S acc acc2
          hk1S hndS hkey1 htv hmi
        have hp := mapLoop_preserves tg S k1 mk
          (fun sf hsf => by
            rw [nodup_assoc_eq S hndS k1 sf sf1 hsf hk1S, hkey1])
          rest acc2 out
          (fun q hq hq1 => hnd.1 (hq1 ▸ List.mem_map_of_mem Prod.fst hq)) hml
        rw [hp, hw]
    · by_cases hn : getDataType mv = DataType.Nil
      · simp only [hn, if_true, reduceIte] at hml
        exact ih acc out ht hnd.2 hml
      · simp only [hn, if_false, reduceIte] at hml
        cases hmi : mapInner tg mk mv (getDataType mv) S S acc with
        | error e2 => rw [hmi] at hml; simp at hml
        | ok acc2 =>
          rw [hmi] at hml
          exact ih acc2 out ht hnd.2 hml

/-- With distinct field names, `tagLookup` answers the field's own tag
value under the configured tag key (empty when absent). -/
theorem tagLookup_effTag (tg : String) (A : List SField) (fld : SField)
    (hnd : (A.map Prod.fst).Nodup) (hm : fld ∈ A) :
    tagLookup tg A fld.1 = .ok (tagsLookup fld.2.1 tg).1 := by
  unfold tagLookup
  rw [find?_self A fld hnd hm]
  by_cases h1 : (tagsLookup fld.2.1 tg).1 = ""
  · simp [h1]
  · have h2 : ¬((tagsLookup fld.2.1 tg).2 = false) :=
      fun hx => h1 (tagsLookup_false_empty _ _ hx)
    simp [h1, h2]

/-- No schema entry keyed `k1` matches the processed field's tag: the
binding of `k1` is untouched by the inner struct loop. -/
theorem structInner_preserves_aux (tg : String) (A : List SField) (fld : SField)
    (mtag : String) (k1 : String)
    (hlk : tagLookup tg A fld.1 = .ok mtag) :
    ∀ (siter schema : Schema) (acc acc2 : List (String × Value)),
    (∀ sf, (k1, sf) ∈ siter → SchemaField.Key sf ≠ mtag) →
    structInner tg A fld siter schema acc = .ok acc2 →
    rlookup acc2 k1 = rlookup acc k1 := by
  intro siter
  induction siter with
  | nil =>
    intro schema acc acc2 _ hsi
    rw [structInner] at hsi
    simp only [Except.ok.injEq] at hsi
    rw [hsi]
  | cons p rest ih =>
    intro schema acc acc2 hno hsi
    obtain ⟨k, sf⟩ := p
    rw [structInner, hlk] at hsi
    by_cases hk : SchemaField.Key sf = mtag
    · have hkne : k ≠ k1 := by
        intro he
        exact hno sf (by rw [he]; exact List.mem_cons_self _ _) hk
      simp only [hk, if_true, reduceIte] at hsi
      by_cases hn : getDataType fld.2.2 = DataType.Nil
      · simp only [hn, if_true, reduceIte] at hsi
        exact ih schema acc acc2 (fun sf2 h2 => hno sf2 (List.mem_cons_of_mem _ h2)) hsi
      · simp only [hn, if_false, reduceIte] at hsi
        cases htv : transformValue tg fld.2.2 (getDataType fld.2.2) (scopeOf sf schema) with
        | error e => rw [htv] at hsi; simp at hsi
        | ok value =>
          rw [htv] at hsi
          rw [ih schema (rinsert acc k value) acc2
            (fun sf2 h2 => hno sf2 (List.mem_cons_of_mem _ h2)) hsi]
          exact rlookup_rinsert_other acc k k1 value (Ne.symm hkne)
    · simp only [hk, if_false, reduceIte] at hsi
      exact ih schema acc acc2 (fun sf2 h2 => hno sf2 (List.mem_cons_of_mem _ h2)) hsi

/-- If schema entry `(k1, sf1)` matches the processed field's tag and the
field's value is not nil, the inner struct loop ends with `k1` bound to the
transform of that value under `sf1`'s scope. -/
theorem structInner_writes (tg : String) (A : List SField) (fld : SField)
    (mtag : String) (k1 : String) (sf1 : SchemaField) (r1 : Value)
    (hlk : tagLookup tg A fld.1 = .ok mtag)
    (hnn : ¬(getDataType fld.2.2 = DataType.Nil)) :
    ∀ (siter schema : Schema) (acc acc2 : List (String × Value)),
    (k1, sf1) ∈ siter →
    (siter.map Prod.fst).Nodup →
    SchemaField.Key sf1 = mtag →
    transformValue tg fld.2.2 (getDataType fld.2.2) (scopeOf sf1 schema) = .ok r1 →
    structInner tg A fld siter schema acc = .ok acc2 →
    rlookup acc2 k1 = some r1 := by
  intro siter
  induction siter with
  | nil => intro schema acc acc2 hmem; simp at hmem
  | cons p rest ih =>
    intro schema acc acc2 hmem hnd hkey htv hsi
    obtain ⟨k, sf⟩ := p
    simp only [List.map_cons, List.nodup_cons] at hnd
    rw [structInner, hlk] at hsi
    rcases List.mem_cons.mp hmem with hh | ht
    · have hk1 : k = k1 := ((Prod.mk.injEq _ _ _ _).mp hh.symm).1
      have hsf : sf = sf1 := ((Prod.mk.injEq _ _ _ _).mp hh.symm).2
      subst hk1
      subst hsf
      simp only [hkey, if_true, reduceIte, hnn, if_false, htv] at hsi
      have hnotin : ∀ sf2, (k, sf2) ∈ rest → False := by
        intro sf2 hsf2
        exact hnd.1 (List.mem_map_of_mem Prod.fst hsf2)
      have hpres := structInner_preserves_aux tg A fld mtag k hlk rest schema
        (rinsert acc k r1) acc2 (fun sf2 hsf2 => absurd hsf2 (hnotin sf2)) hsi
      rw [hpres, rlookup_rinsert_self]
    · by_cases hk : SchemaField.Key sf = mtag
      · simp only [hk, if_true, reduceIte, hnn, if_false] at hsi
        cases htv2 : transformValue tg fld.2.2 (getDataType fld.2.2) (scopeOf sf schema) with
        | error e => rw [htv2] at hsi; simp at hsi
        | ok value =>
          rw [htv2] at hsi
          exact ih schema (rinsert acc k value) acc2 ht hnd.2 hkey htv hsi
      · simp only [hk, if_false, reduceIte] at hsi
        exact ih schema acc acc2 ht hnd.2 hkey htv hsi

/-- Fields whose tag differs from `sk` never touch output key `k1` when
the only schema entry keyed `k1` declares source key `sk`. -/
theorem structLoop_preserves (tg : String) (A : List SField) (S : Schema)
    (k1 sk : String)
    (hndA : (A.map Prod.fst).Nodup)
    (hS : ∀ sf, (k1, sf) ∈ S → SchemaField.Key sf = sk) :
    ∀ (flds : List SField) (acc : List (String × Value)) (out : List (String × Value)),
    (∀ q ∈ flds, q ∈ A) →
    (∀ q ∈ flds, (tagsLookup q.2.1 tg).1 ≠ sk) →
    structLoop tg A flds S acc = .ok (.vresult out) →
    rlookup out k1 = rlookup acc k1 := by
  intro flds
  induction flds with
  | nil =>
    intro acc out _ _ hsl
    rw [structLoop] at hsl
    simp only [Except.ok.injEq, Value.vresult.injEq] at hsl
    rw [← hsl]
  | cons fld rest ih =>
    intro acc out hsub hne hsl
    rw [structLoop] at hsl
    have hlk := tagLookup_effTag tg A fld hndA (hsub fld (by simp))
    cases hsi : structInner tg A fld S S acc with
    | error e => rw [hsi] at hsl; simp at hsl
    | ok acc2 =>
      rw [hsi] at hsl
      have hp := structInner_preserves_aux tg A fld ((tagsLookup fld.2.1 tg).1) k1 hlk S S acc acc2
        (fun sf hsf => by
          rw [hS sf hsf]
          exact fun he => hne fld (List.mem_cons_self _ _) he.symm) hsi
      rw [ih acc2 out (fun q hq => hsub q (List.mem_cons_of_mem _ hq))
        (fun q hq => hne q (List.mem_cons_of_mem _ hq)) hsl, hp]

/-- If the struct has a field tagged `sk` (unique among the fields), every
schema entry `(k1, sf1)` with `Key sf1 = sk` ends bound to the transform of
that field's value under `sf1`'s scope. -/
theorem structLoop_writes (tg : String) (A : List SField) (S : Schema)
    (sk : String) (tfld : SField)
    (k1 : String) (sf1 : SchemaField) (r1 : Value)
    (hndA : (A.map Prod.fst).Nodup)
    (htA : tfld ∈ A)
    (htag : (tagsLookup tfld.2.1 tg).1 = sk)
    (huniq : ∀ q ∈ A, q.1 ≠ tfld.1 → (tagsLookup q.2.1 tg).1 ≠ sk)
    (hk1S : (k1, sf1) ∈ S) (hkey1 : SchemaField.Key sf1 = sk)
    (hndS : (S.map Prod.fst).Nodup)
    (hnn : ¬(getDataType tfld.2.2 = DataType.Nil))
    (htv : transformValue tg tfld.2.2 (getDataType tfld.2.2) (scopeOf sf1 S) = .ok r1) :
    ∀ (flds : List SField) (acc : List (String × Value)) (out : List (String × Value)),
    tfld ∈ flds →
    (∀ q ∈ flds, q ∈ A) →
    (flds.map Prod.fst).Nodup →
    structLoop tg A flds S acc = .ok (.vresult out) →
    rlookup out k1 = some r1 := by
  intro flds
  induction flds with
  | nil => intro acc out hmem _ _ _; simp at hmem
  | cons fld rest ih =>
    intro acc out hmem hsub hndf hsl
    simp only [List.map_cons, List.nodup_cons] at hndf
    rw [structLoop] at hsl
    rcases List.mem_cons.mp hmem with hh | ht
    · subst hh
      have hlk := tagLookup_effTag tg A tfld hndA htA
      rw [htag] at hlk
      cases hsi : structInner tg A tfld S S acc with
      | error e => rw [hsi] at hsl; simp at hsl
      | ok acc2 =>
        rw [hsi] at hsl
        have hw := structInner_writes tg A tfld sk k1 sf1 r1 hlk hnn S S acc acc2
          hk1S hndS hkey1 htv hsi
        have hp := structLoop_preserves tg A S k1 sk hndA
          (fun sf hsf => by
            rw [nodup_assoc_eq S hndS k1 sf sf1 hsf hk1S, hkey1])
          rest acc2 out (fun q hq => hsub q (List.mem_cons_of_mem _ hq))
          (fun q hq => huniq q (hsub q (List.mem_cons_of_mem _ hq))
            (fun he => hndf.1 (he ▸ List.mem_map_of_mem Prod.fst hq))) hsl
        rw [hp, hw]
    · cases hsi : structInner tg A fld S S acc with
      | error e => rw [hsi] at hsl; simp at hsl
      | ok acc2 =>
        rw [hsi] at hsl
        exact ih acc2 out ht (fun q hq => hsub q (List.mem_cons_of_mem _ hq)) hndf.2 hsl

/-- C6: when two schema entries `(k1, sf1)` and `(k2, sf2)` declare the
same source key `sk`, both output keys receive an (independently
re-transformed, under each entry's own scope) copy of the matched source
value — for a map source containing `(sk, val)` and for a struct source
containing a field tagged `sk`. -/
theorem claim_C6 (tg sk k1 k2 : String) (sf1 sf2 : SchemaField) (S : Schema)
    (es : List (String × Value)) (fname : String) (tags : List (String × String))
    (fs : List SField) (val r1 r2 : Value)
    (hk1S : (k1, sf1) ∈ S) (hk2S : (k2, sf2) ∈ S)
    (hkey1 : SchemaField.Key sf1 = sk) (hkey2 : SchemaField.Key sf2 = sk)
    (hndS : (S.map Prod.fst).Nodup)
    (hnn : ¬(getDataType val = DataType.Nil))
    (htv1 : transformValue tg val (getDataType val) (scopeOf sf1 S) = .ok r1)
    (htv2 : transformValue tg val (getDataType val) (scopeOf sf2 S) = .ok r2)
    (hmes : (sk, val) ∈ es) (hndes : (es.map Prod.fst).Nodup)
    (hmfs : (fname, tags, val) ∈ fs) (hndfs : (fs.map Prod.fst).Nodup)
    (htag : (tagsLookup tags tg).1 = sk)
    (huniq : ∀ q ∈ fs, q.1 ≠ fname → (tagsLookup q.2.1 tg).1 ≠ sk) :
    (∃ out, transformMap tg (.vmap es) S = .ok (.vresult out) ∧
      rlookup out k1 = some r1 ∧ rlookup out k2 = some r2) ∧
    (∃ out, transformStruct tg (.vstruct fs) S = .ok (.vresult out) ∧
      rlookup out k1 = some r1 ∧ rlookup out k2 = some r2) := by
  constructor
  · obtain ⟨out, hout⟩ := mapLoop_ok tg S es []
      (fun e he f2 => transformValue_ok tg e.2 f2)
    refine ⟨out, ?_, ?_, ?_⟩
    · simp [transformMap, isNilV, derefOnce, entriesOf, hout]
    · exact mapLoop_writes tg S sk val k1 sf1 r1 hk1S hkey1 hndS hnn htv1
        es [] out hmes hndes hout
    · exact mapLoop_writes tg S sk val k2 sf2 r2 hk2S hkey2 hndS hnn htv2
        es [] out hmes hndes hout
  · obtain ⟨out, hout⟩ := structLoop_ok tg fs S fs [] (fun q h => h)
      (fun fld hf f2 => transformValue_ok tg fld.2.2 f2)
    refine ⟨out, ?_, ?_, ?_⟩
    · simp [transformStruct, isNilV, derefOnce, fieldsOf, hout]
    · exact structLoop_writes tg fs S sk (fname, tags, val) k1 sf1 r1 hndfs hmfs
        htag huniq hk1S hkey1 hndS hnn htv1 fs [] out hmfs (fun q h => h) hndfs hout
    · exact structLoop_writes tg fs S sk (fname, tags, val) k2 sf2 r2 hndfs hmfs
        htag huniq hk2S hkey2 hndS hnn htv2 fs [] out hmfs (fun q h => h) hndfs hout

theorem claim_C6_witness :
    ((("out1" : String), SchemaField.mk "name" none) ∈
        ([("out1", SchemaField.mk "name" none), ("out2", SchemaField.mk "name" none)] : Schema) ∧
     (tagsLookup [("json", "name")] "json").1 = "name") ∧
    ((∃ out, transformMap "json" (.vmap [("name", .vstr "John")])
        [("out1", .mk "name" none), ("out2", .mk "name" none)] = .ok (.vresult out) ∧
      rlookup out "out1" = some (.vstr "John") ∧ rlookup out "out2" = some (.vstr "John")) ∧
     (∃ out, transformStruct "json" (.vstruct [("Name", [("json", "name")], .vstr "John")])
        [("out1", .mk "name" none), ("out2", .mk "name" none)] = .ok (.vresult out) ∧
      rlookup out "out1" = some (.vstr "John") ∧ rlookup out "out2" = some (.vstr "John"))) := by
  refine ⟨⟨by simp, rfl⟩, ?_⟩
  exact claim_C6 "json" "name" "out1" "out2" (.mk "name" none) (.mk "name" none)
    [("out1", .mk "name" none), ("out2", .mk "name" none)]
    [("name", .vstr "John")] "Name" [("json", "name")]
    [("Name", [("json", "name")], .vstr "John")] (.vstr "John") (.vstr "John") (.vstr "John")
    (by simp) (by simp) rfl rfl (by simp) (by simp [getDataType])
    (transformValue_other "json" (.vstr "John") _)
    (transformValue_other "json" (.vstr "John") _)
    (by simp) (by simp) (by simp) (by simp) rfl
    (by
      intro q hq hne
      simp only [List.mem_singleton] at hq
      rw [hq] at hne
      simp at hne)

/-! ## Projection closure (for C3) -/

mutual

/-- All schemas transitively nested inside a schema's entries. -/
def schemaSubs : Schema → List Schema
  | [] => []
  | (_, sf) :: rest => fieldSubs sf ++ schemaSubs rest

def fieldSubs : SchemaField → List Schema
  | .mk _ none => []
  | .mk _ (some g) => g :: schemaSubs g

end

mutual

/-- Every `Result` node inside a transformed value draws its keys from the
output keys of one of the schemas in `L`. -/
def keysOkV (L : List Schema) : Value → Bool
  | .vresult es =>
      L.any (fun g => es.all (fun e => g.any (fun p => p.1 == e.1))) && keysOkL L es
  | .vslice xs => keysOkVL L xs
  | .varray xs => keysOkVL L xs
  | .vptr (some v) => keysOkV L v
  | _ => true

def keysOkL (L : List Schema) : List (String × Value) → Bool
  | [] => true
  | e :: rest => keysOkV L e.2 && keysOkL L rest

def keysOkVL (L : List Schema) : List Value → Bool
  | [] => true
  | x :: rest => keysOkV L x && keysOkVL L rest

end

theorem keysOkL_iff (L : List Schema) (es : List (String × Value)) :
    keysOkL L es = true ↔ ∀ e ∈ es, keysOkV L e.2 = true := by
  induction es with
  | nil => simp [keysOkL]
  | cons e rest ih =>
    rw [keysOkL]
    simp only [Bool.and_eq_true, ih, List.mem_cons]
    constructor
    · rintro ⟨h1, h2⟩ q hq
      rcases hq with hq1 | hq2
      · rw [hq1]; exact h1
      · exact h2 q hq2
    · intro h
      exact ⟨h e (Or.inl rfl), fun q hq => h q (Or.inr hq)⟩

theorem keysOkVL_iff (L : List Schema) (xs : List Value) :
    keysOkVL L xs = true ↔ ∀ x ∈ xs, keysOkV L x = true := by
  induction xs with
  | nil => simp [keysOkVL]
  | cons x rest ih =>
    rw [keysOkVL]
    simp only [Bool.and_eq_true, ih, List.mem_cons]
    constructor
    · rintro ⟨h1, h2⟩ q hq
      rcases hq with hq1 | hq2
      · rw [hq1]; exact h1
      · exact h2 q hq2
    · intro h
      exact ⟨h x (Or.inl rfl), fun q hq => h q (Or.inr hq)⟩

theorem keysOkV_other (L : List Schema) (x : Value) (h : getDataType x = .Other) :
    keysOkV L x = true := by
  cases x with
  | vbool b => simp [keysOkV]
  | vint i => simp [keysOkV]
  | vstr s2 => simp [keysOkV]
  | vnil => simp [getDataType] at h
  | vtime => simp [getDataType] at h
  | vstruct fs => simp [getDataType] at h
  | vmap es => simp [getDataType] at h
  | vresult es => simp [getDataType] at h
  | vslice xs => simp [getDataType] at h
  | varray xs => simp [getDataType] at h
  | vptr o => simp [getDataType] at h

theorem keysOkV_vnil (L : List Schema) : keysOkV L .vnil = true := by
  simp [keysOkV]

/-- Monotonicity of `keysOkV` in the list of permitted schemas. -/
theorem keysOk_mono : ∀ (n : Nat) (v : Value), vsize v ≤ n →
    ∀ (L L2 : List Schema), (∀ g ∈ L, g ∈ L2) →
    keysOkV L v = true → keysOkV L2 v = true := by
  intro n
  induction n using Nat.strong_induction_on with
  | _ n ih =>
    intro v hv L L2 hsub hok
    cases v with
    | vresult es =>
      rw [keysOkV] at hok ⊢
      simp only [Bool.and_eq_true] at hok ⊢
      constructor
      · rcases List.any_eq_true.mp hok.1 with ⟨g, hg, hprop⟩
        exact List.any_eq_true.mpr ⟨g, hsub g hg, hprop⟩
      · rw [keysOkL_iff] at hok ⊢
        intro e he
        have hs : vsize e.2 < vsize (Value.vresult es) := by
          have := mem_elsize e es he
          simp only [vsize]
          omega
        exact ih (vsize e.2) (lt_of_lt_of_le hs hv) e.2 (le_refl _) L L2 hsub
          (hok.2 e he)
    | vslice xs =>
      rw [keysOkV] at hok ⊢
      rw [keysOkVL_iff] at hok ⊢
      intro x hx
      have hs : vsize x < vsize (Value.vslice xs) := by
        have := mem_vlsize x xs hx
        simp only [vsize]
        omega
      exact ih (vsize x) (lt_of_lt_of_le hs hv) x (le_refl _) L L2 hsub (hok x hx)
    | varray xs =>
      rw [keysOkV] at hok ⊢
      rw [keysOkVL_iff] at hok ⊢
      intro x hx
      have hs : vsize x < vsize (Value.varray xs) := by
        have := mem_vlsize x xs hx
        simp only [vsize]
        omega
      exact ih (vsize x) (lt_of_lt_of_le hs hv) x (le_refl _) L L2 hsub (hok x hx)
    | vptr o =>
      cases o with
      | none => simp [keysOkV]
      | some w =>
        rw [keysOkV] at hok ⊢
        have hs : vsize w < vsize (Value.vptr (some w)) := by
          simp only [vsize]
          omega
        exact ih (vsize w) (lt_of_lt_of_le hs hv) w (le_refl _) L L2 hsub hok
    | _ => simp [keysOkV]

/-- Nested schemas of an entry are among the transitively nested schemas. -/
theorem fieldSubs_sub (S : Schema) (k : String) (sf : SchemaField)
    (hm : (k, sf) ∈ S) : ∀ g ∈ fieldSubs sf, g ∈ schemaSubs S := by
  induction S with
  | nil => simp at hm
  | cons p rest ih =>
    obtain ⟨k0, sf0⟩ := p
    intro g hg
    rw [schemaSubs]
    rcases List.mem_cons.mp hm with hh | ht
    · have hsf : sf0 = sf := ((Prod.mk.injEq _ _ _ _).mp hh.symm).2
      rw [hsf]
      exact List.mem_append_left _ hg
    · exact List.mem_append_right _ (ih ht g hg)

/-- The scope chosen for a matched entry, together with its own nested
schemas, stays inside `schema`'s family. -/
theorem scopeOf_sub (schema : Schema) (k : String) (sf : SchemaField)
    (hm : (k, sf) ∈ schema) (L : List Schema)
    (hself : schema ∈ L) (hsubs : ∀ g ∈ schemaSubs schema, g ∈ L) :
    scopeOf sf schema ∈ L ∧ ∀ g ∈ schemaSubs (scopeOf sf schema), g ∈ L := by
  obtain ⟨key, vOpt⟩ := sf
  cases vOpt with
  | none =>
    constructor
    · simpa [scopeOf, SchemaField.Value] using hself
    · intro g hg
      apply hsubs
      simpa [scopeOf, SchemaField.Value] using hg
  | some g0 =>
    have h1 : scopeOf (.mk key (some g0)) schema = g0 := by
      simp [scopeOf, SchemaField.Value]
    rw [h1]
    have hf : ∀ g ∈ fieldSubs (.mk key (some g0)), g ∈ schemaSubs schema :=
      fieldSubs_sub schema k _ hm
    constructor
    · exact hsubs g0 (hf g0 (by rw [fieldSubs]; exact List.mem_cons_self _ _))
    · intro g hg
      exact hsubs g (hf g (by rw [fieldSubs]; exact List.mem_cons_of_mem _ hg))

theorem mem_rinsert (acc : List (String × Value)) (k : String) (v : Value) :
    ∀ e ∈ rinsert acc k v, e = (k, v) ∨ e ∈ acc := by
  induction acc with
  | nil => intro e he; simp [rinsert] at he; exact Or.inl he
  | cons p rest ih =>
    obtain ⟨k0, v0⟩ := p
    intro e he
    by_cases h : k0 = k
    · subst h
      simp only [rinsert, if_true, reduceIte, List.mem_cons] at he
      rcases he with he1 | he2
      · exact Or.inl (by rw [he1])
      · exact Or.inr (List.mem_cons_of_mem _ he2)
    · simp only [rinsert, h, if_false, reduceIte, List.mem_cons] at he
      rcases he with he1 | he2
      · exact Or.inr (by rw [he1]; exact List.mem_cons_self _ _)
      · rcases ih e he2 with h1 | h2
        · exact Or.inl h1
        · exact Or.inr (List.mem_cons_of_mem _ h2)

/-- The inner struct loop preserves the accumulator invariant: keys drawn
from the enclosing schema, values keys-bounded by `L`. -/
theorem structInner_keysOk (tg : String) (A : List SField) (fld : SField)
    (L : List Schema)
    (hfld : ∀ f2 v2, transformValue tg fld.2.2 (getDataType fld.2.2) f2 = .ok v2 →
      keysOkV (f2 :: schemaSubs f2) v2 = true) :
    ∀ (siter schema : Schema) (acc acc2 : List (String × Value)),
    (∀ p ∈ siter, p ∈ schema) →
    schema ∈ L → (∀ g ∈ schemaSubs schema, g ∈ L) →
    (∀ e ∈ acc, ∃ p ∈ schema, p.1 = e.1) →
    keysOkL L acc = true →
    structInner tg A fld siter schema acc = .ok acc2 →
    (∀ e ∈ acc2, ∃ p ∈ schema, p.1 = e.1) ∧ keysOkL L acc2 = true := by
  intro siter
  induction siter with
  | nil =>
    intro schema acc acc2 _ _ _ hk1 hk2 hsi
    rw [structInner] at hsi
    simp only [Except.ok.injEq] at hsi
    subst hsi
    exact ⟨hk1, hk2⟩
  | cons p rest ih =>
    intro schema acc acc2 hsub hself hsubs hk1 hk2 hsi
    obtain ⟨k, sf⟩ := p
    rw [structInner] at hsi
    cases hlk : tagLookup tg A fld.1 with
    | error e => rw [hlk] at hsi; simp at hsi
    | ok t =>
      rw [hlk] at hsi
      by_cases hkt : SchemaField.Key sf = t
      · simp only [hkt, if_true, reduceIte] at hsi
        by_cases hn : getDataType fld.2.2 = DataType.Nil
        · simp only [hn, if_true, reduceIte] at hsi
          exact ih schema acc acc2 (fun q hq => hsub q (List.mem_cons_of_mem _ hq))
            hself hsubs hk1 hk2 hsi
        · simp only [hn, if_false, reduceIte] at hsi
          cases htv : transformValue tg fld.2.2 (getDataType fld.2.2) (scopeOf sf schema) with
          | error e => rw [htv] at hsi; simp at hsi
          | ok value =>
            rw [htv] at hsi
            have hscope := scopeOf_sub schema k sf (hsub (k, sf) (List.mem_cons_self _ _))
              L hself hsubs
            have hvL : keysOkV L value = true := by
              apply keysOk_mono (vsize value) value (le_refl _) _ L ?_
                (hfld (scopeOf sf schema) value htv)
              intro g hg
              rcases List.mem_cons.mp hg with h1 | h2
              · rw [h1]; exact hscope.1
              · exact hscope.2 g h2
            refine ih schema (rinsert acc k value) acc2
              (fun q hq => hsub q (List.mem_cons_of_mem _ hq)) hself hsubs ?_ ?_ hsi
            · intro e he
              rcases mem_rinsert acc k value e he with h1 | h2
              · exact ⟨(k, sf), hsub (k, sf) (List.mem_cons_self _ _), by rw [h1]⟩
              · exact hk1 e h2
            · rw [keysOkL_iff]
              intro e he
              rcases mem_rinsert acc k value e he with h1 | h2
              · rw [h1]; exact hvL
              · exact (keysOkL_iff L acc).mp hk2 e h2
      · simp only [hkt, if_false, reduceIte] at hsi
        exact ih schema acc acc2 (fun q hq => hsub q (List.mem_cons_of_mem _ hq))
          hself hsubs hk1 hk2 hsi

theorem structLoop_keysOk (tg : String) (A : List SField) (L : List Schema)
    (schema : Schema) (hself : schema ∈ L) (hsubs : ∀ g ∈ schemaSubs schema, g ∈ L) :
    ∀ (flds : List SField) (acc : List (String × Value)) (v : Value),
    (∀ fld ∈ flds, ∀ f2 v2,
      transformValue tg fld.2.2 (getDataType fld.2.2) f2 = .ok v2 →
      keysOkV (f2 :: schemaSubs f2) v2 = true) →
    (∀ e ∈ acc, ∃ p ∈ schema, p.1 = e.1) →
    keysOkL L acc = true →
    structLoop tg A flds schema acc = .ok v →
    keysOkV L v = true := by
  intro flds
  induction flds with
  | nil =>
    intro acc v _ hk1 hk2 hsl
    rw [structLoop] at hsl
    simp only [Except.ok.injEq] at hsl
    subst hsl
    rw [keysOkV]
    simp only [Bool.and_eq_true]
    constructor
    · apply List.any_eq_true.mpr
      refine ⟨schema, hself, ?_⟩
      apply List.all_eq_true.mpr
      intro e he
      rcases hk1 e he with ⟨p, hp, hpe⟩
      exact List.any_eq_true.mpr ⟨p, hp, by simp [hpe]⟩
    · exact hk2
  | cons fld rest ih =>
    intro acc v hfl hk1 hk2 hsl
    rw [structLoop] at hsl
    cases hsi : structInner tg A fld schema schema acc with
    | error e => rw [hsi] at hsl; simp at hsl
    | ok acc2 =>
      rw [hsi] at hsl
      have hinv := structInner_keysOk tg A fld L (hfl fld (List.mem_cons_self _ _))
        schema schema acc acc2 (fun q hq => hq) hself hsubs hk1 hk2 hsi
      exact ih acc2 v (fun q hq => hfl q (List.mem_cons_of_mem _ hq)) hinv.1 hinv.2 hsl

/-- The inner map loop preserves the accumulator invariant. -/
theorem mapInner_keysOk (tg : String) (mkey : String) (mv : Value) (mt : DataType)
    (L : List Schema)
    (hmv : ∀ f2 v2, transformValue tg mv mt f2 = .ok v2 →
      keysOkV (f2 :: schemaSubs f2) v2 = true) :
    ∀ (siter schema : Schema) (acc acc2 : List (String × Value)),
    (∀ p ∈ siter, p ∈ schema) →
    schema ∈ L → (∀ g ∈ schemaSubs schema, g ∈ L) →
    (∀ e ∈ acc, ∃ p ∈ schema, p.1 = e.1) →
    keysOkL L acc = true →
    mapInner tg mkey mv mt siter schema acc = .ok acc2 →
    (∀ e ∈ acc2, ∃ p ∈ schema, p.1 = e.1) ∧ keysOkL L acc2 = true := by
  intro siter
  induction siter with
  | nil =>
    intro schema acc acc2 _ _ _ hk1 hk2 hmi
    rw [mapInner] at hmi
    simp only [Except.ok.injEq] at hmi
    subst hmi
    exact ⟨hk1, hk2⟩
  | cons p rest ih =>
    intro schema acc acc2 hsub hself hsubs hk1 hk2 hmi
    obtain ⟨k, sf⟩ := p
    rw [mapInner] at hmi
    by_cases hkt : SchemaField.Key sf = mkey
    · simp only [hkt, if_true, reduceIte] at hmi
      cases htv : transformValue tg mv mt (scopeOf sf schema) with
      | error e => rw [htv] at hmi; simp at hmi
      | ok value =>
        rw [htv] at hmi
        have hscope := scopeOf_sub schema k sf (hsub (k, sf) (List.mem_cons_self _ _))
          L hself hsubs
        have hvL : keysOkV L value = true := by
          apply keysOk_mono (vsize value) value (le_refl _) _ L ?_
            (hmv (scopeOf sf schema) value htv)
          intro g hg
          rcases List.mem_cons.mp hg with h1 | h2
          · rw [h1]; exact hscope.1
          · exact hscope.2 g h2
        refine ih schema (rinsert acc k value) acc2
          (fun q hq => hsub q (List.mem_cons_of_mem _ hq)) hself hsubs ?_ ?_ hmi
        · intro e he
          rcases mem_rinsert acc k value e he with h1 | h2
          · exact ⟨(k, sf), hsub (k, sf) (List.mem_cons_self _ _), by rw [h1]⟩
          · exact hk1 e h2
        · rw [keysOkL_iff]
          intro e he
          rcases mem_rinsert acc k value e he with h1 | h2
          · rw [h1]; exact hvL
          · exact (keysOkL_iff L acc).mp hk2 e h2
    · simp only [hkt, if_false, reduceIte] at hmi
      exact ih schema acc acc2 (fun q hq => hsub q (List.mem_cons_of_mem _ hq))
        hself hsubs hk1 hk2 hmi

theorem mapLoop_keysOk (tg : String) (L : List Schema) (schema : Schema)
    (hself : schema ∈ L) (hsubs : ∀ g ∈ schemaSubs schema, g ∈ L) :
    ∀ (es : List (String × Value)) (acc : List (String × Value)) (v : Value),
    (∀ e ∈ es, ∀ f2 v2,
      transformValue tg e.2 (getDataType e.2) f2 = .ok v2 →
      keysOkV (f2 :: schemaSubs f2) v2 = true) →
    (∀ e ∈ acc, ∃ p ∈ schema, p.1 = e.1) →
    keysOkL L acc = true →
    mapLoop tg es schema acc = .ok v →
    keysOkV L v = true := by
  intro es
  induction es with
  | nil =>
    intro acc v _ hk1 hk2 hml
    rw [mapLoop] at hml
    simp only [Except.ok.injEq] at hml
    subst hml
    rw [keysOkV]
    simp only [Bool.and_eq_true]
    constructor
    · apply List.any_eq_true.mpr
      refine ⟨schema, hself, ?_⟩
      apply List.all_eq_true.mpr
      intro e he
      rcases hk1 e he with ⟨p, hp, hpe⟩
      exact List.any_eq_true.mpr ⟨p, hp, by simp [hpe]⟩
    · exact hk2
  | cons e rest ih =>
    intro acc v hes hk1 hk2 hml
    obtain ⟨mk, mv⟩ := e
    rw [mapLoop] at hml
    by_cases hn : getDataType mv = DataType.Nil
    · simp only [hn, if_true, reduceIte] at hml
      exact ih acc v (fun q hq => hes q (List.mem_cons_of_mem _ hq)) hk1 hk2 hml
    · simp only [hn, if_false, reduceIte] at hml
      cases hmi : mapInner tg mk mv (getDataType mv) schema schema acc with
      | error e2 => rw [hmi] at hml; simp at hml
      | ok acc2 =>
        rw [hmi] at hml
        have hinv := mapInner_keysOk tg mk mv (getDataType mv) L
          (hes (mk, mv) (List.mem_cons_self _ _)) schema schema acc acc2
          (fun q hq => hq) hself hsubs hk1 hk2 hmi
        exact ih acc2 v (fun q hq => hes q (List.mem_cons_of_mem _ hq)) hinv.1 hinv.2 hml

theorem collLoop_keysOk (tg : String) (L : List Schema) (schema : Schema)
    (hself : schema ∈ L) (hsubs : ∀ g ∈ schemaSubs schema, g ∈ L) :
    ∀ (elems : List Value) (acc : List Value) (v : Value),
    (∀ x ∈ elems, ∀ f2 v2,
      transformValue tg x (getDataType x) f2 = .ok v2 →
      keysOkV (f2 :: schemaSubs f2) v2 = true) →
    keysOkVL L acc = true →
    collLoop tg elems schema acc = .ok v →
    keysOkV L v = true := by
  intro elems
  induction elems with
  | nil =>
    intro acc v _ hk hcl
    rw [collLoop] at hcl
    simp only [Except.ok.injEq] at hcl
    subst hcl
    rw [keysOkV]
    exact hk
  | cons x rest ih =>
    intro acc v hxs hk hcl
    rw [collLoop] at hcl
    by_cases hn : getDataType x = DataType.Nil
    · simp only [hn, if_true, reduceIte] at hcl
      exact ih acc v (fun q hq => hxs q (List.mem_cons_of_mem _ hq)) hk hcl
    · simp only [hn, if_false, reduceIte] at hcl
      cases htv : transformValue tg x (getDataType x) schema with
      | error e => rw [htv] at hcl; simp at hcl
      | ok value =>
        rw [htv] at hcl
        by_cases ho : getDataType x = DataType.Other
        · simp only [ho, if_true, reduceIte] at hcl
          have hvx : value = x := by
            have h2 := transformValue_other tg x schema
            rw [ho] at htv
            rw [htv] at h2
            exact (Except.ok.injEq _ _).mp h2
          have hka : keysOkVL L (acc ++ [value]) = true := by
            rw [keysOkVL_iff]
            intro q hq
            rcases List.mem_append.mp hq with h1 | h2
            · exact (keysOkVL_iff L acc).mp hk q h1
            · simp only [List.mem_singleton] at h2
              rw [h2, hvx]
              exact keysOkV_other L x ho
          exact ih (acc ++ [value]) v (fun q hq => hxs q (List.mem_cons_of_mem _ hq)) hka hcl
        · simp only [ho, if_false, reduceIte] at hcl
          have hvL : keysOkV L value = true := by
            apply keysOk_mono (vsize value) value (le_refl _) _ L ?_
              (hxs x (List.mem_cons_self _ _) schema value htv)
            intro g hg
            rcases List.mem_cons.mp hg with h1 | h2
            · rw [h1]; exact hself
            · exact hsubs g h2
          cases value with
          | vresult es =>
            have hka : keysOkVL L (acc ++ [Value.vresult es]) = true := by
              rw [keysOkVL_iff]
              intro q hq
              rcases List.mem_append.mp hq with h1 | h2
              · exact (keysOkVL_iff L acc).mp hk q h1
              · simp only [List.mem_singleton] at h2
                rw [h2]
                exact hvL
            exact ih (acc ++ [Value.vresult es]) v
              (fun q hq => hxs q (List.mem_cons_of_mem _ hq)) hka hcl
          | _ =>
            first
            | exact ih acc v (fun q hq => hxs q (List.mem_cons_of_mem _ hq)) hk hcl

/-- Projection closure for the recursive transformer: every `Result` node
in the output draws its keys from the schema family of the supplied
schema. -/
theorem keysOk_main (tg : String) :
    ∀ (n : Nat) (s : Value) (f : Schema) (v : Value), vsize s ≤ n →
    transformValue tg s (getDataType s) f = .ok v →
    keysOkV (f :: schemaSubs f) v = true := by
  intro n
  induction n using Nat.strong_induction_on with
  | _ n ih =>
    intro s f v hs htv
    have hself : f ∈ f :: schemaSubs f := List.mem_cons_self _ _
    have hsubs : ∀ g ∈ schemaSubs f, g ∈ f :: schemaSubs f :=
      fun g hg => List.mem_cons_of_mem _ hg
    cases s with
    | vnil =>
      rw [transformValue.eq_def] at htv
      simp [getDataType] at htv
      subst htv
      exact keysOkV_vnil _
    | vbool b =>
      simp only [getDataType] at htv
      rw [transformValue_other] at htv
      simp only [Except.ok.injEq] at htv
      rw [← htv]
      exact keysOkV_other _ _ rfl
    | vint i =>
      simp only [getDataType] at htv
      rw [transformValue_other] at htv
      simp only [Except.ok.injEq] at htv
      rw [← htv]
      exact keysOkV_other _ _ rfl
    | vstr t =>
      simp only [getDataType] at htv
      rw [transformValue_other] at htv
      simp only [Except.ok.injEq] at htv
      rw [← htv]
      exact keysOkV_other _ _ rfl
    | vtime =>
      rw [transformValue.eq_def] at htv
      simp [getDataType, isCustomStruct] at htv
      subst htv
      simp [keysOkV]
    | vstruct fs =>
      rw [transformValue.eq_def] at htv
      simp [getDataType, isCustomStruct, transformStruct, isNilV, derefOnce, fieldsOf] at htv
      have hfl : ∀ fld ∈ fs, ∀ f2 v2,
          transformValue tg fld.2.2 (getDataType fld.2.2) f2 = .ok v2 →
          keysOkV (f2 :: schemaSubs f2) v2 = true := by
        intro fld hfld f2 v2 htv2
        have h1 : vsize fld.2.2 < vsize (Value.vstruct fs) := by
          have := mem_flsize fld fs hfld
          simp only [vsize]
          omega
        exact ih (vsize fld.2.2) (lt_of_lt_of_le h1 hs) fld.2.2 f2 v2 (le_refl _) htv2
      exact structLoop_keysOk tg fs (f :: schemaSubs f) f hself hsubs fs [] v hfl
        (by simp) (by rw [keysOkL]) htv
    | vmap es =>
      rw [transformValue.eq_def] at htv
      simp [getDataType, transformMap, isNilV, derefOnce, entriesOf] at htv
      have hes : ∀ e ∈ es, ∀ f2 v2,
          transformValue tg e.2 (getDataType e.2) f2 = .ok v2 →
          keysOkV (f2 :: schemaSubs f2) v2 = true := by
        intro e he f2 v2 htv2
        have h1 : vsize e.2 < vsize (Value.vmap es) := by
          have := mem_elsize e es he
          simp only [vsize]
          omega
        exact ih (vsize e.2) (lt_of_lt_of_le h1 hs) e.2 f2 v2 (le_refl _) htv2
      exact mapLoop_keysOk tg (f :: schemaSubs f) f hself hsubs es [] v hes
        (by simp) (by rw [keysOkL]) htv
    | vresult es =>
      rw [transformValue.eq_def] at htv
      simp [getDataType, transformMap, isNilV, derefOnce, entriesOf] at htv
      have hes : ∀ e ∈ es, ∀ f2 v2,
          transformValue tg e.2 (getDataType e.2) f2 = .ok v2 →
          keysOkV (f2 :: schemaSubs f2) v2 = true := by
        intro e he f2 v2 htv2
        have h1 : vsize e.2 < vsize (Value.vresult es) := by
          have := mem_elsize e es he
          simp only [vsize]
          omega
        exact ih (vsize e.2) (lt_of_lt_of_le h1 hs) e.2 f2 v2 (le_refl _) htv2
      exact mapLoop_keysOk tg (f :: schemaSubs f) f hself hsubs es [] v hes
        (by simp) (by rw [keysOkL]) htv
    | vslice xs =>
      rw [transformValue.eq_def] at htv
      simp [getDataType, transformCollections, isNilV, derefOnce, elemsOf] at htv
      have hxs : ∀ x ∈ xs, ∀ f2 v2,
          transformValue tg x (getDataType x) f2 = .ok v2 →
          keysOkV (f2 :: schemaSubs f2) v2 = true := by
        intro x hx f2 v2 htv2
        have h1 : vsize x < vsize (Value.vslice xs) := by
          have := mem_vlsize x xs hx
          simp only [vsize]
          omega
        exact ih (vsize x) (lt_of_lt_of_le h1 hs) x f2 v2 (le_refl _) htv2
      exact collLoop_keysOk tg (f :: schemaSubs f) f hself hsubs xs [] v hxs
        (by rw [keysOkVL]) htv
    | varray xs =>
      rw [transformValue.eq_def] at htv
      simp [getDataType, transformCollections, isNilV, derefOnce, elemsOf] at htv
      have hxs : ∀ x ∈ xs, ∀ f2 v2,
          transformValue tg x (getDataType x) f2 = .ok v2 →
          keysOkV (f2 :: schemaSubs f2) v2 = true := by
        intro x hx f2 v2 htv2
        have h1 : vsize x < vsize (Value.varray xs) := by
          have := mem_vlsize x xs hx
          simp only [vsize]
          omega
        exact ih (vsize x) (lt_of_lt_of_le h1 hs) x f2 v2 (le_refl _) htv2
      exact collLoop_keysOk tg (f :: schemaSubs f) f hself hsubs xs [] v hxs
        (by rw [keysOkVL]) htv
    | vptr o =>
      cases o with
      | none =>
        rw [transformValue.eq_def] at htv
        simp only [getDataType, reduceIte, getPtrValue] at htv
        have h1n : 1 < n := by
          simp only [vsize] at hs
          omega
        exact ih 1 h1n .vnil f v (by simp [vsize]) htv
      | some w =>
        rw [transformValue.eq_def] at htv
        simp only [getDataType, reduceIte, getPtrValue] at htv
        have h1 : vsize w < vsize (Value.vptr (some w)) := by
          simp only [vsize]
          omega
        exact ih (vsize w) (lt_of_lt_of_le h1 hs) w f v (le_refl _) htv

/-- C3: the key set of every produced `Result`, at the top level and at
every nesting depth, is drawn from the output keys declared by the schema
in scope at that depth — i.e. by the supplied schema or one of its
transitively nested schemas; no source-side name ever leaks. Holds for
`transformValue` and for `Transform`. -/
theorem claim_C3 (tg : String) (s : Value) (f : Schema) :
    (∀ v, transformValue tg s (getDataType s) f = .ok v →
      keysOkV (f :: schemaSubs f) v = true) ∧
    (∀ v, Transform tg s f = .ok v →
      keysOkV (f :: schemaSubs f) v = true) := by
  have hself : f ∈ f :: schemaSubs f := List.mem_cons_self _ _
  have hsubs : ∀ g ∈ schemaSubs f, g ∈ f :: schemaSubs f :=
    fun g hg => List.mem_cons_of_mem _ hg
  have hall : ∀ (s2 : Value) (f2 : Schema) (v2 : Value),
      transformValue tg s2 (getDataType s2) f2 = .ok v2 →
      keysOkV (f2 :: schemaSubs f2) v2 = true :=
    fun s2 f2 v2 h => keysOk_main tg (vsize s2) s2 f2 v2 (le_refl _) h
  constructor
  · intro v h
    exact hall s f v h
  · intro v h
    cases s with
    | vnil =>
      simp [Transform, getDataType, execute, isNilV] at h
      subst h
      exact keysOkV_vnil _
    | vbool b => simp [Transform, getDataType] at h
    | vint i => simp [Transform, getDataType] at h
    | vstr t => simp [Transform, getDataType] at h
    | vptr o =>
      simp [Transform, getDataType, execute, isNilV] at h
      subst h
      exact keysOkV_vnil _
    | vtime =>
      simp [Transform, getDataType, execute, isNilV, transformStruct, derefOnce,
        fieldsOf, structLoop] at h
      rw [← h, keysOkV]
      simp only [Bool.and_eq_true]
      refine ⟨List.any_eq_true.mpr ⟨f, hself, by simp⟩, by rw [keysOkL]⟩
    | vstruct fs =>
      simp [Transform, getDataType, execute, isNilV, transformStruct, derefOnce,
        fieldsOf] at h
      exact structLoop_keysOk tg fs (f :: schemaSubs f) f hself hsubs fs [] v
        (fun fld _ f2 v2 h2 => hall fld.2.2 f2 v2 h2) (by simp) (by rw [keysOkL]) h
    | vmap es =>
      simp [Transform, getDataType, execute, isNilV, transformMap, derefOnce,
        entriesOf] at h
      exact mapLoop_keysOk tg (f :: schemaSubs f) f hself hsubs es [] v
        (fun e _ f2 v2 h2 => hall e.2 f2 v2 h2) (by simp) (by rw [keysOkL]) h
    | vresult es =>
      simp [Transform, getDataType, execute, isNilV, transformMap, derefOnce,
        entriesOf] at h
      exact mapLoop_keysOk tg (f :: schemaSubs f) f hself hsubs es [] v
        (fun e _ f2 v2 h2 => hall e.2 f2 v2 h2) (by simp) (by rw [keysOkL]) h
    | vslice xs =>
      simp [Transform, getDataType, execute, isNilV, transformCollections, derefOnce,
        elemsOf] at h
      exact collLoop_keysOk tg (f :: schemaSubs f) f hself hsubs xs [] v
        (fun x _ f2 v2 h2 => hall x f2 v2 h2) (by rw [keysOkVL]) h
    | varray xs =>
      simp [Transform, getDataType, execute, isNilV, transformCollections, derefOnce,
        elemsOf] at h
      exact collLoop_keysOk tg (f :: schemaSubs f) f hself hsubs xs [] v
        (fun x _ f2 v2 h2 => hall x f2 v2 h2) (by rw [keysOkVL]) h

theorem claim_C3_witness :
    Transform "json" (.vstruct [("Name", [("json", "name")], .vstr "John")])
      [("username", .mk "name" none)] = .ok (.vresult [("username", .vstr "John")]) ∧
    keysOkV ([("username", SchemaField.mk "name" none)] ::
        schemaSubs [("username", .mk "name" none)])
      (.vresult [("username", .vstr "John")]) = true := by
  have he : Transform "json" (.vstruct [("Name", [("json", "name")], .vstr "John")])
      [("username", SchemaField.mk "name" none)] =
      .ok (.vresult [("username", .vstr "John")]) := by
    simp [Transform, execute, getDataType, isNilV, transformStruct, derefOnce,
      fieldsOf, structLoop, structInner, tagLookup, tagsLookup, transformValue,
      scopeOf, SchemaField.Key, SchemaField.Value, rinsert]
  exact ⟨he, (claim_C3 "json" (.vstruct [("Name", [("json", "name")], .vstr "John")])
    [("username", .mk "name" none)]).2 _ he⟩

end Mantau
